import Mathlib

/-!
Verification development for the gomigratex migration engine.

The definitions below are a shallow embedding of the Go sources:
`internal/fsutil/scanner.go` (pair discovery), `internal/migrator/planner.go`
(planning and drift detection), `internal/migrator/storage.go` (ledger
operations), the runner (`ApplyUp`, `ApplyDown`, `ForceBaseline`) and the
CLI-level `repairChecksums` helper.  Pure functions become Lean functions;
the database is modelled as an explicit state record carrying the ledger
table together with observation lists (scripts attempted / committed,
count of max-execution-order reads).  Wall-clock time is abstracted as an
explicit `now` parameter; byte strings are modelled as `String`.
-/

namespace Gomigratex

/-- Strict byte-wise comparison of character lists, the model of Go's
built-in string `<` (UTF-8 byte order agrees with code-point order). -/
def charListLt : List Char → List Char → Bool
  | _, [] => false
  | [], _ :: _ => true
  | a :: as, b :: bs => if a < b then true else if b < a then false else charListLt as bs

/-- Go string comparison `a < b`, on the underlying character data. -/
def strLt (a b : String) : Bool := charListLt a.data b.data

theorem charListLt_irrefl (l : List Char) : charListLt l l = false := by
  induction l with
  | nil => rfl
  | cons a as ih => simp [charListLt, ih]

theorem charListLt_asymm : ∀ {x y : List Char}, charListLt x y = true → charListLt y x = false
  | x, [], h => by cases x <;> simp [charListLt] at h
  | [], _ :: _, _ => by simp [charListLt]
  | a :: as, b :: bs, h => by
    simp only [charListLt] at h ⊢
    rcases lt_trichotomy a b with hab | hab | hab
    · simp [hab, not_lt_of_gt hab]
    · subst hab
      simp only [lt_irrefl, if_false] at h ⊢
      exact charListLt_asymm h
    · simp [hab, not_lt_of_gt hab] at h

theorem charListLt_trans : ∀ {x y z : List Char},
    charListLt x y = true → charListLt y z = true → charListLt x z = true
  | _, _, [], _, h2 => by simp [charListLt] at h2
  | [], _, _ :: _, _, _ => by simp [charListLt]
  | a :: as, y, c :: cs, h1, h2 => by
    match y with
    | [] => simp [charListLt] at h1
    | b :: bs =>
      simp only [charListLt] at h1 h2 ⊢
      rcases lt_trichotomy a b with hab | hab | hab
      · rcases lt_trichotomy b c with hbc | hbc | hbc
        · simp [lt_trans hab hbc]
        · subst hbc; simp [hab]
        · simp [hbc, not_lt_of_gt hbc] at h2
      · subst hab
        rcases lt_trichotomy a c with hac | hac | hac
        · simp [hac]
        · subst hac
          simp only [lt_irrefl, if_false] at h1 h2 ⊢
          exact charListLt_trans h1 h2
        · simp [hac, not_lt_of_gt hac] at h2
      · simp [hab, not_lt_of_gt hab] at h1

theorem charListLt_total_eq : ∀ {x y : List Char},
    charListLt x y = false → charListLt y x = false → x = y
  | [], [], _, _ => rfl
  | [], _ :: _, h1, _ => by simp [charListLt] at h1
  | _ :: _, [], _, h2 => by simp [charListLt] at h2
  | a :: as, b :: bs, h1, h2 => by
    simp only [charListLt] at h1 h2
    rcases lt_trichotomy a b with hab | hab | hab
    · simp [hab] at h1
    · subst hab
      simp only [lt_irrefl, if_false] at h1 h2
      exact congrArg (a :: ·) (charListLt_total_eq h1 h2)
    · simp [hab] at h2

/-- Byte-wise list comparison is unchanged by removing a common prefix. -/
theorem charListLt_append_same : ∀ (p x y : List Char),
    charListLt (p ++ x) (p ++ y) = charListLt x y := by
  intro p
  induction p with
  | nil => intro x y; rfl
  | cons a as ih =>
    intro x y
    simp only [List.cons_append, charListLt, lt_irrefl, if_false]
    exact ih x y

theorem strLt_irrefl (a : String) : strLt a a = false := charListLt_irrefl _

theorem strLt_asymm {a b : String} (h : strLt a b = true) : strLt b a = false :=
  charListLt_asymm h

theorem strLt_trans {a b c : String} (h1 : strLt a b = true) (h2 : strLt b c = true) :
    strLt a c = true := charListLt_trans h1 h2

theorem strLt_total_eq {a b : String} (h1 : strLt a b = false) (h2 : strLt b a = false) :
    a = b := String.ext (charListLt_total_eq h1 h2)

/-! ### Pair discovery (`internal/fsutil/scanner.go`) -/

/-- Character class `[0-9]` of the filename pattern. -/
def isDigitChar (c : Char) : Bool := c.isDigit

/-- Character class `[a-zA-Z0-9_-]` of the filename pattern's name group. -/
def isNameChar (c : Char) : Bool := c.isAlphanum || c = '_' || c = '-'

/-- Model of matching a file name against the anchored pattern
`^(\d+)_([a-zA-Z0-9_\-]+)\.(up|down)\.sql$` (`fileRe` in scanner.go) and
extracting `(version, name, isUp)`.  The digit run and the name run are
maximal, which coincides with the regexp's backtracking semantics because
`_` is not a digit and `.` is not a name character. -/
def parseMigName (s : String) : Option (String × String × Bool) :=
  let cs := s.data
  let ver := cs.takeWhile isDigitChar
  if ver.isEmpty then none else
  match cs.dropWhile isDigitChar with
  | [] => none
  | c :: rest2 =>
    if c = '_' then
      let nm := rest2.takeWhile isNameChar
      if nm.isEmpty then none else
      let tail := rest2.dropWhile isNameChar
      if tail = ".up.sql".data then some (String.mk ver, String.mk nm, true)
      else if tail = ".down.sql".data then some (String.mk ver, String.mk nm, false)
      else none
    else none

/-- One discovered (possibly half-filled) pair, `fsutil.Pair`.  As in the
source, an empty path string means "this half not seen yet". -/
structure Pair where
  version : String
  name : String
  upPath : String
  downPath : String
  deriving Repr, DecidableEq

/-- One directory entry as seen by `os.ReadDir` / `fs.ReadDir`. -/
structure DirEntry where
  name : String
  isDir : Bool
  deriving Repr, DecidableEq

/-- Go's `version + ":" + name` map key (`keyOf` in storage.go, `Key` in
the migrator package). -/
def keyStr (version name : String) : String := version ++ ":" ++ name

/-- Lookup in the insertion-ordered association list that models the Go
map `map[string]*Pair`. -/
def lookupA (m : List (String × Pair)) (k : String) : Option Pair :=
  (m.find? (fun kp => kp.1 == k)).map (fun kp => kp.2)

/-- In-place update of the key's binding (Go mutates through the `*Pair`
pointer), appending a fresh binding when the key is absent. -/
def insertA : List (String × Pair) → String → Pair → List (String × Pair)
  | [], k, p => [(k, p)]
  | kp :: t, k, p => if kp.1 = k then (k, p) :: t else kp :: insertA t k p

/-- The scanning loop of `scan` (scanner.go lines 44-73): directories and
non-matching names are skipped, duplicate halves abort with an error, and
each matching file records its full path into its `(version,name)` pair. -/
def scanGo (full : String → String) : List DirEntry → List (String × Pair) →
    Except String (List (String × Pair))
  | [], out => .ok out
  | e :: rest, out =>
    if e.isDir then scanGo full rest out else
    match parseMigName e.name with
    | none => scanGo full rest out
    | some (v, n, isUp) =>
      let k := keyStr v n
      let p := (lookupA out k).getD { version := v, name := n, upPath := "", downPath := "" }
      if isUp then
        if p.upPath ≠ "" then .error ("duplicate up file for version " ++ v)
        else scanGo full rest (insertA out k { p with upPath := full e.name })
      else
        if p.downPath ≠ "" then .error ("duplicate down file for version " ++ v)
        else scanGo full rest (insertA out k { p with downPath := full e.name })

/-- Full `scan` (scanner.go lines 44-81): the loop above followed by the
completeness validation that runs only after the whole listing is
exhausted. -/
def scanMap (entries : List DirEntry) (full : String → String) :
    Except String (List (String × Pair)) :=
  match scanGo full entries [] with
  | .error e => .error e
  | .ok out =>
    match out.find? (fun kp => kp.2.upPath == "" || kp.2.downPath == "") with
    | some kp => .error ("missing pair for " ++ kp.1)
    | none => .ok out

/-- The substring of a key before its first `:`;
models `strings.SplitN(key, ":", 2)[0]` in `SortKeys`. -/
def versionOf (k : String) : String := String.mk (k.data.takeWhile (fun c => c ≠ ':'))

/-- The `sort.Slice` comparator of `SortKeys`: version token first, then
the whole key (hence the name) as tie-break. -/
def keyLess (a b : String) : Bool :=
  let va := versionOf a
  let vb := versionOf b
  if va = vb then strLt a b else strLt va vb

/-- Total (non-strict) order induced by the comparator, as used by the Go
sort: `a` may precede `b` iff `¬ less(b, a)`. -/
def keyLe (a b : String) : Bool := ! keyLess b a

/-- Model of `SortKeys`: the map's keys (handed over in the map's arbitrary
iteration order) sorted by the comparator.  `sort.Slice` with a strict
total order has a unique possible output (proved below as determinism), so
any sorting algorithm models it faithfully. -/
def SortKeys (keys : List String) : List String :=
  List.insertionSort (fun a b => keyLe a b = true) keys

theorem keyLess_asymm {a b : String} (h : keyLess a b = true) : keyLess b a = false := by
  unfold keyLess at h ⊢
  by_cases hv : versionOf a = versionOf b
  · simp [hv] at h ⊢
    exact strLt_asymm h
  · simp [hv, Ne.symm hv] at h ⊢
    exact strLt_asymm h

theorem keyLess_total_eq {a b : String} (h1 : keyLess a b = false)
    (h2 : keyLess b a = false) : a = b := by
  unfold keyLess at h1 h2
  by_cases hv : versionOf a = versionOf b
  · simp [hv] at h1 h2
    exact strLt_total_eq h1 h2
  · simp [hv, Ne.symm hv] at h1 h2
    exact absurd (strLt_total_eq h1 h2) hv

theorem keyLess_trans {a b c : String} (h1 : keyLess a b = true)
    (h2 : keyLess b c = true) : keyLess a c = true := by
  unfold keyLess at h1 h2 ⊢
  by_cases hab : versionOf a = versionOf b
  · by_cases hbc : versionOf b = versionOf c
    · rw [if_pos hab] at h1
      rw [if_pos hbc] at h2
      rw [if_pos (hab.trans hbc)]
      exact strLt_trans h1 h2
    · rw [if_neg hbc] at h2
      have hac : versionOf a ≠ versionOf c := fun h => hbc (hab ▸ h)
      rw [if_neg hac, hab]
      exact h2
  · by_cases hbc : versionOf b = versionOf c
    · rw [if_neg hab] at h1
      have hac : versionOf a ≠ versionOf c := fun h => hab (h.trans hbc.symm)
      rw [if_neg hac, ← hbc]
      exact h1
    · rw [if_neg hab] at h1
      rw [if_neg hbc] at h2
      by_cases hac : versionOf a = versionOf c
      · exfalso
        have hb : strLt (versionOf b) (versionOf b) = true :=
          strLt_trans h2 (hac ▸ h1)
        simp [strLt_irrefl] at hb
      · rw [if_neg hac]
        exact strLt_trans h1 h2

theorem keyLe_trans {a b c : String} (h1 : keyLe a b = true) (h2 : keyLe b c = true) :
    keyLe a c = true := by
  unfold keyLe at h1 h2 ⊢
  simp only [Bool.not_eq_true'] at h1 h2 ⊢
  rcases Bool.eq_false_or_eq_true (keyLess c a) with h | h
  · exfalso
    rcases Bool.eq_false_or_eq_true (keyLess a b) with hab | hab
    · have hcb := keyLess_trans h hab
      simp [hcb] at h2
    · have hba := keyLess_total_eq hab h1
      rw [hba] at h
      simp [h] at h2
  · exact h

theorem keyLe_total (a b : String) : (keyLe a b || keyLe b a) = true := by
  unfold keyLe
  rcases Bool.eq_false_or_eq_true (keyLess b a) with h | h
  · simp [h, keyLess_asymm h]
  · simp [h]

/-! ### Data model (`internal/migrator`) -/

/-- One ledger row (`migrator.Row`).  `appliedAt` models the wall-clock
timestamp as an abstract tick count, `executionOrder` the int64 order
(no overflow behaviour is exercised by the engine's invariants). -/
structure Row where
  version : String
  name : String
  checksum : String
  appliedAt : Nat
  appliedBy : String
  durationMS : Int
  status : String
  executionOrder : Int
  deriving Repr, DecidableEq

/-- One fully-read migration pair (`migrator.FilePair`); `upBytes` and
`downBytes` model the raw script bytes as strings. -/
structure FilePair where
  version : String
  name : String
  upPath : String
  downPath : String
  upBytes : String
  downBytes : String
  checksum : String
  deriving Repr, DecidableEq

/-- Key of a pair, `fp.Version + ":" + fp.Name`. -/
def keyFP (fp : FilePair) : String := keyStr fp.version fp.name

/-- Key of a ledger row. -/
def keyRow (r : Row) : String := keyStr r.version r.name

/-- ASCII-faithful model of `strings.EqualFold` (migration checksums are
hex digests, so only ASCII case folding is exercised). -/
def equalFold (a b : String) : Bool := a.data.map Char.toLower == b.data.map Char.toLower

/-! ### Ledger storage (`internal/migrator/storage.go`)

The ledger table is modelled as the list of its rows in insertion order;
`(version, name)` is the unique key. -/

/-- Lookup of the row stored under key `k`, modelling reads of the
`map[string]Row` returned by `Storage.GetAll`. -/
def findRow (ledger : List Row) (k : String) : Option Row :=
  ledger.find? (fun r => keyRow r == k)

/-- Model of `Storage.MaxExecutionOrder`:
`SELECT COALESCE(MAX(execution_order), 0)` — 0 on an empty table. -/
def maxExecutionOrder (ledger : List Row) : Int :=
  match ledger with
  | [] => 0
  | r :: rest => rest.foldl (fun acc q => max acc q.executionOrder) r.executionOrder

/-- Model of `Storage.Upsert`: `INSERT ... ON DUPLICATE KEY UPDATE` keyed
on `(version, name)` — update in place when the key exists, append
otherwise. -/
def upsert (ledger : List Row) (r : Row) : List Row :=
  if ledger.any (fun q => keyRow q == keyRow r) then
    ledger.map (fun q => if keyRow q == keyRow r then r else q)
  else ledger ++ [r]

/-- Model of `Storage.Delete`: removes every row with the given key. -/
def deleteRow (ledger : List Row) (version name : String) : List Row :=
  ledger.filter (fun q => ! (keyRow q == keyStr version name))

/-! ### Planner (`internal/migrator/planner.go`) -/

/-- Error taxonomy of `DiscoverAndPlan`: `drift` models an error wrapping
`ErrDrift` (with key, ledger checksum and file checksum as the formatted
context), every other discovery failure is a plain scanning error. -/
inductive MigErr where
  | scanErr (msg : String)
  | drift (key dbSum fileSum : String)
  deriving Repr, DecidableEq

/-- The pending-classification loop of `DiscoverAndPlan` (planner.go lines
89-105): walks `all` in order, looks up each pair's own ledger entry,
raises drift for a successful entry whose checksum differs
case-insensitively, retries failed entries, skips successful ones. -/
def planPending (all : List FilePair) (applied : String → Option Row) :
    Except MigErr (List FilePair) :=
  match all with
  | [] => .ok []
  | fp :: rest =>
    let k := keyFP fp
    match applied k with
    | some row =>
      if row.status == "success" && ! equalFold row.checksum fp.checksum then
        .error (.drift k row.checksum fp.checksum)
      else if row.status == "failed" then
        (planPending rest applied).map (fun l => fp :: l)
      else planPending rest applied
    | none => (planPending rest applied).map (fun l => fp :: l)

/-- Reading one discovered pair into a `FilePair` (planner.go lines 59-83):
`content` models reading a path's bytes, `hash` models `checksum.SHA256`
over the forward script only. -/
def toFilePair (content : String → String) (hash : String → String) (p : Pair) : FilePair :=
  { version := p.version, name := p.name, upPath := p.upPath, downPath := p.downPath,
    upBytes := content p.upPath, downBytes := content p.downPath,
    checksum := hash (content p.upPath) }

/-- The `all` list of `DiscoverAndPlan`: map keys sorted by `SortKeys`,
each key resolved back through the map and read into a `FilePair`. -/
def buildAll (m : List (String × Pair)) (content : String → String)
    (hash : String → String) : List FilePair :=
  (SortKeys (m.map (fun kp => kp.1))).filterMap
    (fun k => (lookupA m k).map (toFilePair content hash))

/-- The resulting plan (`migrator.Plan`); `appliedRows` carries the ledger
rows backing the `Applied` map. -/
structure GoPlan where
  pending : List FilePair
  appliedRows : List Row
  all : List FilePair

/-- Model of `DiscoverAndPlan`: scan and validate the source listing, sort
and read all pairs, then classify against the ledger.  The association
list `m` and the `ledger` list stand for the Go maps; the determinism
theorem for claim C8 shows any iteration order yields the same plan. -/
def DiscoverAndPlan (entries : List DirEntry) (full : String → String)
    (content : String → String) (hash : String → String) (ledger : List Row) :
    Except MigErr GoPlan :=
  match scanMap entries full with
  | .error e => .error (.scanErr e)
  | .ok m =>
    let all := buildAll m content hash
    match planPending all (findRow ledger) with
    | .error e => .error e
    | .ok pending => .ok { pending := pending, appliedRows := ledger, all := all }

/-! ### Runner (`internal/migrator`, runner code)

The database connection is modelled as a state record: the ledger table,
an observation counter for `MaxExecutionOrder` reads, and lists recording
which scripts were executed (`ExecContext` reached) and which transactions
committed.  Script/transaction outcomes are supplied by a deterministic
oracle `exec : FilePair → ExecOutcome`. -/

/-- Outcome of one per-change transaction: `BeginTx` failure, `ExecContext`
failure (rolled back), `Commit` failure, or full success. -/
inductive ExecOutcome where
  | ok
  | beginFail
  | execFail
  | commitFail
  deriving Repr, DecidableEq

/-- The observable database state threaded through the runner. -/
structure DBState where
  ledger : List Row
  maxReads : Nat
  upAttempted : List FilePair
  upCommitted : List FilePair
  downAttempted : List FilePair
  downCommitted : List FilePair
  deriving Repr, DecidableEq

/-- Result of `ApplyUp` / `ForceBaseline`: the applied rows, the returned
error (`none` on full success), and the final database state. -/
structure UpResult where
  applied : List Row
  err : Option String
  state : DBState
  deriving Repr, DecidableEq

/-- The ledger row a runner invocation constructs for one pair before its
attempt (success status; failure paths overwrite the status field). -/
def mkUpRow (appliedBy : String) (now : Nat) (fp : FilePair) (ord : Int) : Row :=
  { version := fp.version, name := fp.name, checksum := fp.checksum,
    appliedAt := now, appliedBy := appliedBy, durationMS := 0,
    status := "success", executionOrder := ord }

/-- The success rows a run constructs for a list of pairs, with execution
orders counting on from `maxOrder`: the i-th pair gets `maxOrder + i + 1`. -/
def ordRows (appliedBy : String) (now : Nat) (maxOrder : Int) : List FilePair → List Row
  | [] => []
  | fp :: rest => mkUpRow appliedBy now fp (maxOrder + 1) :: ordRows appliedBy now (maxOrder + 1) rest

/-- Sequence of upserts, left to right. -/
def upsertAll (ledger : List Row) (rows : List Row) : List Row :=
  rows.foldl upsert ledger

/-- Sequence of ledger deletions, left to right. -/
def deleteAll (ledger : List Row) (rows : List Row) : List Row :=
  rows.foldl (fun l r => deleteRow l r.version r.name) ledger

/-- The per-change loop of `ApplyUp` (runner source lines 164-233).
`maxOrder` is the in-memory high-water mark, incremented before every
attempt; dry-run records the synthetic success row in the result only;
execution or commit failure upserts a `failed` row and stops; `BeginTx`
failure returns a nil applied list as in the source. -/
def applyUpGo (exec : FilePair → ExecOutcome) (appliedBy : String) (now : Nat)
    (dryRun : Bool) : List FilePair → Int → List Row → DBState → UpResult
  | [], _, applied, st => { applied := applied, err := none, state := st }
  | fp :: rest, maxOrder, applied, st =>
    let ord := maxOrder + 1
    let row : Row := mkUpRow appliedBy now fp ord
    if dryRun then
      applyUpGo exec appliedBy now dryRun rest ord (applied ++ [row]) st
    else
      match exec fp with
      | .beginFail => { applied := [], err := some "begin failed", state := st }
      | .execFail =>
        let st' := { st with
          upAttempted := st.upAttempted ++ [fp],
          ledger := upsert st.ledger { row with status := "failed" } }
        { applied := applied,
          err := some ("migration " ++ keyFP fp ++ " failed"), state := st' }
      | .commitFail =>
        let st' := { st with
          upAttempted := st.upAttempted ++ [fp],
          ledger := upsert st.ledger { row with status := "failed" } }
        { applied := applied, err := some "commit failed", state := st' }
      | .ok =>
        let st' := { st with
          upAttempted := st.upAttempted ++ [fp],
          upCommitted := st.upCommitted ++ [fp],
          ledger := upsert st.ledger row }
        applyUpGo exec appliedBy now dryRun rest ord (applied ++ [row]) st'

/-- Model of `Runner.ApplyUp`: one `MaxExecutionOrder` read before the
loop, then the per-change loop with the in-memory counter. -/
def ApplyUp (exec : FilePair → ExecOutcome) (files : List FilePair) (dryRun : Bool)
    (appliedBy : String) (now : Nat) (st : DBState) : UpResult :=
  applyUpGo exec appliedBy now dryRun files (maxExecutionOrder st.ledger) []
    { st with maxReads := st.maxReads + 1 }

/-- Model of `Runner.ApplyDown` (runner source lines 237-263): resolve the
pair before the dry-run check, execute the backward script transactionally,
delete the ledger row on success, abort on any failure. -/
def ApplyDown (exec : FilePair → ExecOutcome) : List Row → (String → Option FilePair) →
    Bool → DBState → Option String × DBState
  | [], _, _, st => (none, st)
  | row :: rest, lookup, dryRun, st =>
    match lookup (keyRow row) with
    | none => (some ("missing down file for " ++ keyRow row), st)
    | some fp =>
      if dryRun then ApplyDown exec rest lookup dryRun st
      else
        match exec fp with
        | .beginFail => (some "begin failed", st)
        | .execFail =>
          (some ("down migration " ++ keyRow row ++ " failed"),
           { st with downAttempted := st.downAttempted ++ [fp] })
        | .commitFail =>
          (some "commit failed", { st with downAttempted := st.downAttempted ++ [fp] })
        | .ok =>
          let st' := { st with
            downAttempted := st.downAttempted ++ [fp],
            downCommitted := st.downCommitted ++ [fp],
            ledger := deleteRow st.ledger row.version row.name }
          ApplyDown exec rest lookup dryRun st'

/-- The loop of `ForceBaseline` (runner source lines 290-319): pairs with a
version above the target are skipped without consuming an order; otherwise
a success row with the next order is upserted, after actually executing
the forward script when `fake` is false. -/
def forceBaselineGo (exec : FilePair → ExecOutcome) (appliedBy : String) (now : Nat)
    (version : String) (fake : Bool) : List FilePair → Int → List Row → DBState → UpResult
  | [], _, applied, st => { applied := applied, err := none, state := st }
  | fp :: rest, maxOrder, applied, st =>
    if strLt version fp.version then
      forceBaselineGo exec appliedBy now version fake rest maxOrder applied st
    else
      let ord := maxOrder + 1
      let row : Row := mkUpRow appliedBy now fp ord
      if fake then
        forceBaselineGo exec appliedBy now version fake rest ord (applied ++ [row])
          { st with ledger := upsert st.ledger row }
      else
        match exec fp with
        | .beginFail => { applied := applied, err := some "begin failed", state := st }
        | .execFail =>
          { applied := applied, err := some "exec failed",
            state := { st with upAttempted := st.upAttempted ++ [fp] } }
        | .commitFail =>
          { applied := applied, err := some "commit failed",
            state := { st with upAttempted := st.upAttempted ++ [fp] } }
        | .ok =>
          let st' := { st with
            upAttempted := st.upAttempted ++ [fp],
            upCommitted := st.upCommitted ++ [fp],
            ledger := upsert st.ledger row }
          forceBaselineGo exec appliedBy now version fake rest ord (applied ++ [row]) st'

/-- Model of `Runner.ForceBaseline`: one `MaxExecutionOrder` read, then the
baseline loop over all discovered pairs. -/
def ForceBaseline (exec : FilePair → ExecOutcome) (all : List FilePair) (version : String)
    (fake : Bool) (appliedBy : String) (now : Nat) (st : DBState) : UpResult :=
  forceBaselineGo exec appliedBy now version fake all (maxExecutionOrder st.ledger) []
    { st with maxReads := st.maxReads + 1 }

/-- Model of the CLI helper `repairChecksums` (CONTRIBUTING.md lines
824-847): for every discovered pair with an existing ledger entry whose
checksum differs case-insensitively, overwrite the entry's checksum and
timestamp via upsert; dry-run counts without writing.  Returns the change
count and the resulting ledger. -/
def repairChecksums (all : List FilePair) (applied : String → Option Row) (dry : Bool)
    (now : Nat) (ledger : List Row) : Nat × List Row :=
  match all with
  | [] => (0, ledger)
  | fp :: rest =>
    match applied (keyFP fp) with
    | none => repairChecksums rest applied dry now ledger
    | some row =>
      if equalFold row.checksum fp.checksum then
        repairChecksums rest applied dry now ledger
      else
        let row' := { row with checksum := fp.checksum, appliedAt := now }
        if dry then
          let r := repairChecksums rest applied dry now ledger
          (r.1 + 1, r.2)
        else
          let r := repairChecksums rest applied dry now (upsert ledger row')
          (r.1 + 1, r.2)

/-! ### Loop lemmas for the runner -/

theorem ordRows_length (appliedBy : String) (now : Nat) :
    ∀ (files : List FilePair) (maxOrder : Int),
      (ordRows appliedBy now maxOrder files).length = files.length := by
  intro files
  induction files with
  | nil => intro m; rfl
  | cons fp rest ih => intro m; simp [ordRows, ih]

theorem ordRows_status (appliedBy : String) (now : Nat) :
    ∀ (files : List FilePair) (maxOrder : Int) (r : Row),
      r ∈ ordRows appliedBy now maxOrder files → r.status = "success" := by
  intro files
  induction files with
  | nil => intro m r h; simp [ordRows] at h
  | cons fp rest ih =>
    intro m r h
    simp only [ordRows, List.mem_cons] at h
    rcases h with h | h
    · rw [h]; rfl
    · exact ih (m + 1) r h

theorem ordRows_map_key (appliedBy : String) (now : Nat) :
    ∀ (files : List FilePair) (maxOrder : Int),
      (ordRows appliedBy now maxOrder files).map keyRow = files.map keyFP := by
  intro files
  induction files with
  | nil => intro m; rfl
  | cons fp rest ih => intro m; simp [ordRows, ih]; rfl

/-- Dry-run characterization of the `ApplyUp` loop: rows are appended to
the result only, the state is untouched. -/
theorem applyUpGo_dry (exec : FilePair → ExecOutcome) (appliedBy : String) (now : Nat) :
    ∀ (files : List FilePair) (maxOrder : Int) (applied : List Row) (st : DBState),
      applyUpGo exec appliedBy now true files maxOrder applied st =
        { applied := applied ++ ordRows appliedBy now maxOrder files,
          err := none, state := st } := by
  intro files
  induction files with
  | nil => intro m a st; simp [applyUpGo, ordRows]
  | cons fp rest ih =>
    intro m a st
    simp only [applyUpGo, if_pos, ordRows]
    rw [ih]
    simp

/-- One successful step of the non-dry `ApplyUp` loop. -/
theorem applyUpGo_cons_ok {exec : FilePair → ExecOutcome} {fp : FilePair}
    (appliedBy : String) (now : Nat) (rest : List FilePair) (m : Int) (a : List Row)
    (st : DBState) (hfp : exec fp = .ok) :
    applyUpGo exec appliedBy now false (fp :: rest) m a st =
      applyUpGo exec appliedBy now false rest (m + 1) (a ++ [mkUpRow appliedBy now fp (m + 1)])
        { st with
          upAttempted := st.upAttempted ++ [fp],
          upCommitted := st.upCommitted ++ [fp],
          ledger := upsert st.ledger (mkUpRow appliedBy now fp (m + 1)) } := by
  simp [applyUpGo, hfp]

/-- All-success characterization of the non-dry `ApplyUp` loop. -/
theorem applyUpGo_ok (exec : FilePair → ExecOutcome) (appliedBy : String) (now : Nat) :
    ∀ (files : List FilePair) (maxOrder : Int) (applied : List Row) (st : DBState),
      (∀ fp ∈ files, exec fp = .ok) →
      applyUpGo exec appliedBy now false files maxOrder applied st =
        { applied := applied ++ ordRows appliedBy now maxOrder files,
          err := none,
          state := { st with
            upAttempted := st.upAttempted ++ files,
            upCommitted := st.upCommitted ++ files,
            ledger := upsertAll st.ledger (ordRows appliedBy now maxOrder files) } } := by
  intro files
  induction files with
  | nil => intro m a st _; simp [applyUpGo, ordRows, upsertAll]
  | cons fp rest ih =>
    intro m a st hok
    rw [applyUpGo_cons_ok appliedBy now rest m a st (hok fp (List.mem_cons_self fp rest))]
    rw [ih (m + 1) (a ++ [mkUpRow appliedBy now fp (m + 1)]) _
      (fun q hq => hok q (List.mem_cons_of_mem fp hq))]
    simp [ordRows, upsertAll, List.append_assoc]

/-- Failure characterization of the non-dry `ApplyUp` loop: the first
failing change (script execution or commit) stops the run, upserting its
`failed` row after the successful changes before it. -/
theorem applyUpGo_fail (exec : FilePair → ExecOutcome) (appliedBy : String) (now : Nat) :
    ∀ (pre : List FilePair) (bad : FilePair) (post : List FilePair) (maxOrder : Int)
      (applied : List Row) (st : DBState),
      (∀ fp ∈ pre, exec fp = .ok) →
      (exec bad = .execFail ∨ exec bad = .commitFail) →
      ∃ msg,
        applyUpGo exec appliedBy now false (pre ++ bad :: post) maxOrder applied st =
          { applied := applied ++ ordRows appliedBy now maxOrder pre,
            err := some msg,
            state := { st with
              upAttempted := st.upAttempted ++ pre ++ [bad],
              upCommitted := st.upCommitted ++ pre,
              ledger := upsert
                (upsertAll st.ledger (ordRows appliedBy now maxOrder pre))
                { mkUpRow appliedBy now bad (maxOrder + pre.length + 1)
                    with status := "failed" } } } := by
  intro pre
  induction pre with
  | nil =>
    intro bad post m a st _ hbad
    rcases hbad with hb | hb
    · exact ⟨"migration " ++ keyFP bad ++ " failed", by
        simp [applyUpGo, hb, ordRows, upsertAll]⟩
    · exact ⟨"commit failed", by
        simp [applyUpGo, hb, ordRows, upsertAll]⟩
  | cons fp rest ih =>
    intro bad post m a st hok hbad
    have hfp : exec fp = .ok := hok fp (List.mem_cons_self fp rest)
    obtain ⟨msg, hmsg⟩ := ih bad post (m + 1) (a ++ [mkUpRow appliedBy now fp (m + 1)])
      ({ st with
          upAttempted := st.upAttempted ++ [fp],
          upCommitted := st.upCommitted ++ [fp],
          ledger := upsert st.ledger (mkUpRow appliedBy now fp (m + 1)) })
      (fun q hq => hok q (List.mem_cons_of_mem fp hq)) hbad
    refine ⟨msg, ?_⟩
    rw [List.cons_append, applyUpGo_cons_ok appliedBy now (rest ++ bad :: post) m a st hfp,
      hmsg]
    have hlen : ((rest.length + 1 : Nat) : Int) = (rest.length : Int) + 1 := by push_cast; ring
    simp [ordRows, upsertAll, List.append_assoc, hlen]
    try ring_nf
    try omega

/-- The loop never reads the ledger's max again: `maxReads` is preserved. -/
theorem applyUpGo_maxReads (exec : FilePair → ExecOutcome) (appliedBy : String) (now : Nat)
    (dryRun : Bool) :
    ∀ (files : List FilePair) (maxOrder : Int) (applied : List Row) (st : DBState),
      (applyUpGo exec appliedBy now dryRun files maxOrder applied st).state.maxReads =
        st.maxReads := by
  intro files
  induction files with
  | nil => intro m a st; rfl
  | cons fp rest ih =>
    intro m a st
    simp only [applyUpGo]
    by_cases hd : dryRun
    · rw [if_pos hd]; exact ih _ _ _
    · rw [if_neg hd]
      cases hexec : exec fp <;> simp [hexec, ih]

/-! ### Ledger lemmas: how `findRow` sees upserts and deletes -/

theorem upsertAll_cons (L : List Row) (r : Row) (t : List Row) :
    upsertAll L (r :: t) = upsertAll (upsert L r) t := rfl

theorem deleteAll_cons (L : List Row) (r : Row) (t : List Row) :
    deleteAll L (r :: t) = deleteAll (deleteRow L r.version r.name) t := rfl

theorem findRow_cons_pos {k : String} {q : Row} (t : List Row)
    (h : (keyRow q == k) = true) : findRow (q :: t) k = some q :=
  List.find?_cons_of_pos _ h

theorem findRow_cons_neg {k : String} {q : Row} (t : List Row)
    (h : (keyRow q == k) = false) : findRow (q :: t) k = findRow t k :=
  List.find?_cons_of_neg _ (by simp [h])

theorem findRow_append {k : String} {L1 : List Row} (L2 : List Row)
    (h : findRow L1 k = none) : findRow (L1 ++ L2) k = findRow L2 k := by
  induction L1 with
  | nil => rfl
  | cons q t ih =>
    rw [findRow, List.find?_eq_none] at h
    have hq : (keyRow q == k) = false := by
      have := h q (List.mem_cons_self q t)
      simpa using this
    rw [List.cons_append, findRow_cons_neg _ hq]
    exact ih (by rw [findRow, List.find?_eq_none]; exact fun x hx => h x (List.mem_cons_of_mem q hx))

theorem findRow_append_of_some {k : String} {q : Row} {L1 : List Row} (L2 : List Row)
    (h : findRow L1 k = some q) : findRow (L1 ++ L2) k = some q := by
  induction L1 with
  | nil => simp [findRow] at h
  | cons x t ih =>
    cases hx : (keyRow x == k) with
    | true =>
      rw [findRow_cons_pos t hx] at h
      rw [List.cons_append, findRow_cons_pos _ hx]
      exact h
    | false =>
      rw [findRow_cons_neg t hx] at h
      rw [List.cons_append, findRow_cons_neg _ hx]
      exact ih h

theorem findRow_map_replace {r : Row} :
    ∀ (L : List Row), L.any (fun q => keyRow q == keyRow r) = true →
      findRow (L.map (fun q => if keyRow q == keyRow r then r else q)) (keyRow r) = some r := by
  intro L
  induction L with
  | nil => intro h; simp at h
  | cons q t ih =>
    intro h
    by_cases hq : keyRow q = keyRow r
    · rw [List.map_cons, (by simp [hq] : (if keyRow q == keyRow r then r else q) = r)]
      exact findRow_cons_pos _ (by simp)
    · rw [List.map_cons, (by simp [hq] : (if keyRow q == keyRow r then r else q) = q)]
      rw [findRow_cons_neg _ (by simp [hq])]
      exact ih (by simpa [hq] using h)

theorem findRow_map_replace_other {r : Row} {k : String} (hk : keyRow r ≠ k) :
    ∀ (L : List Row),
      findRow (L.map (fun q => if keyRow q == keyRow r then r else q)) k = findRow L k := by
  intro L
  induction L with
  | nil => rfl
  | cons q t ih =>
    by_cases hq : keyRow q = keyRow r
    · rw [List.map_cons, (by simp [hq] : (if keyRow q == keyRow r then r else q) = r)]
      rw [findRow_cons_neg _ (by simp [hk]), findRow_cons_neg _ (by simp [hq, hk])]
      exact ih
    · rw [List.map_cons, (by simp [hq] : (if keyRow q == keyRow r then r else q) = q)]
      cases hqk : (keyRow q == k) with
      | true => rw [findRow_cons_pos _ hqk, findRow_cons_pos _ hqk]
      | false =>
        rw [findRow_cons_neg _ hqk, findRow_cons_neg _ hqk]
        exact ih

theorem findRow_upsert_self (L : List Row) (r : Row) :
    findRow (upsert L r) (keyRow r) = some r := by
  unfold upsert
  by_cases hany : L.any (fun q => keyRow q == keyRow r) = true
  · rw [if_pos hany]
    exact findRow_map_replace L hany
  · rw [if_neg hany]
    have hnone : findRow L (keyRow r) = none := by
      rw [findRow, List.find?_eq_none]
      intro x hx hc
      exact hany (List.any_eq_true.mpr ⟨x, hx, hc⟩)
    rw [findRow_append [r] hnone]
    exact findRow_cons_pos _ (by simp)

theorem findRow_upsert_other {k : String} (L : List Row) (r : Row) (h : keyRow r ≠ k) :
    findRow (upsert L r) k = findRow L k := by
  unfold upsert
  by_cases hany : L.any (fun q => keyRow q == keyRow r) = true
  · rw [if_pos hany]
    exact findRow_map_replace_other h L
  · rw [if_neg hany]
    rcases hfind : findRow L k with _ | q
    · rw [findRow_append [r] hfind]
      exact (findRow_cons_neg [] (by simp [h])).trans rfl
    · rw [findRow_append_of_some [r] hfind]

theorem findRow_upsertAll_other {k : String} :
    ∀ (rows : List Row) (L : List Row), (∀ r ∈ rows, keyRow r ≠ k) →
      findRow (upsertAll L rows) k = findRow L k := by
  intro rows
  induction rows with
  | nil => intro L _; rfl
  | cons r t ih =>
    intro L h
    rw [upsertAll_cons, ih (upsert L r) (fun x hx => h x (List.mem_cons_of_mem r hx))]
    exact findRow_upsert_other L r (h r (List.mem_cons_self r t))

theorem findRow_upsertAll_self :
    ∀ (rows : List Row) (L : List Row) (r : Row), (rows.map keyRow).Nodup → r ∈ rows →
      findRow (upsertAll L rows) (keyRow r) = some r := by
  intro rows
  induction rows with
  | nil => intro L r _ h; simp at h
  | cons q t ih =>
    intro L r hnd hr
    simp only [List.map_cons, List.nodup_cons] at hnd
    rcases List.mem_cons.mp hr with hrq | hrt
    · subst hrq
      rw [upsertAll_cons, findRow_upsertAll_other t (upsert L r)
        (fun x hx hk => hnd.1 (by rw [← hk]; exact List.mem_map_of_mem keyRow hx))]
      exact findRow_upsert_self L r
    · rw [upsertAll_cons]
      exact ih (upsert L q) r hnd.2 hrt

theorem findRow_deleteRow_self (L : List Row) (v n : String) :
    findRow (deleteRow L v n) (keyStr v n) = none := by
  rw [findRow, List.find?_eq_none]
  intro x hx
  have hkeep := (List.mem_filter.mp hx).2
  simp only [Bool.not_eq_eq_eq_not, Bool.not_true] at hkeep
  simp [hkeep]

theorem findRow_deleteRow_other {k : String} (L : List Row) (v n : String)
    (h : keyStr v n ≠ k) : findRow (deleteRow L v n) k = findRow L k := by
  induction L with
  | nil => rfl
  | cons q t ih =>
    by_cases hq : keyRow q = keyStr v n
    · rw [deleteRow, List.filter_cons_of_neg (by simp [hq])]
      rw [findRow_cons_neg _ (by simp [hq, h]), ← deleteRow]
      exact ih
    · rw [deleteRow, List.filter_cons_of_pos (by simp [hq])]
      cases hqk : (keyRow q == k) with
      | true => rw [findRow_cons_pos _ hqk, findRow_cons_pos _ hqk]
      | false =>
        rw [findRow_cons_neg _ hqk, findRow_cons_neg _ hqk, ← deleteRow]
        exact ih

theorem findRow_none_deleteRow {k : String} (L : List Row) (v n : String)
    (h : findRow L k = none) : findRow (deleteRow L v n) k = none := by
  rw [findRow, List.find?_eq_none] at h ⊢
  intro x hx
  exact h x (List.mem_of_mem_filter hx)

theorem findRow_none_deleteAll {k : String} :
    ∀ (rows : List Row) (L : List Row), findRow L k = none →
      findRow (deleteAll L rows) k = none := by
  intro rows
  induction rows with
  | nil => intro L h; exact h
  | cons r t ih =>
    intro L h
    rw [deleteAll_cons]
    exact ih (deleteRow L r.version r.name) (findRow_none_deleteRow L r.version r.name h)

theorem findRow_deleteAll_mem {k : String} :
    ∀ (rows : List Row) (L : List Row), (∃ r ∈ rows, keyRow r = k) →
      findRow (deleteAll L rows) k = none := by
  intro rows
  induction rows with
  | nil => intro L h; simp at h
  | cons q t ih =>
    intro L h
    rcases h with ⟨r, hr, hk⟩
    rcases List.mem_cons.mp hr with hrq | hrt
    · subst hrq
      rw [deleteAll_cons]
      exact findRow_none_deleteAll t (deleteRow L r.version r.name)
        (hk ▸ findRow_deleteRow_self L r.version r.name)
    · rw [deleteAll_cons]
      exact ih (deleteRow L q.version q.name) ⟨r, hrt, hk⟩

theorem findRow_deleteAll_other {k : String} :
    ∀ (rows : List Row) (L : List Row), (∀ r ∈ rows, keyRow r ≠ k) →
      findRow (deleteAll L rows) k = findRow L k := by
  intro rows
  induction rows with
  | nil => intro L _; rfl
  | cons q t ih =>
    intro L h
    rw [deleteAll_cons, ih (deleteRow L q.version q.name)
      (fun x hx => h x (List.mem_cons_of_mem q hx))]
    exact findRow_deleteRow_other L q.version q.name (h q (List.mem_cons_self q t))

/-! ### Concrete fixtures used by witnesses -/

/-- Concrete pair used by witnesses. -/
def wpA : FilePair :=
  { version := "20250101000000", name := "init", upPath := "m/a.up.sql",
    downPath := "m/a.down.sql", upBytes := "CREATE TABLE t1(id INT);",
    downBytes := "DROP TABLE t1;", checksum := "aaa1" }

/-- Concrete pair used by witnesses. -/
def wpB : FilePair :=
  { version := "20250102000000", name := "add_col", upPath := "m/b.up.sql",
    downPath := "m/b.down.sql", upBytes := "ALTER TABLE t1 ADD COLUMN c INT;",
    downBytes := "ALTER TABLE t1 DROP COLUMN c;", checksum := "bbb2" }

/-- Concrete pair used by witnesses. -/
def wpC : FilePair :=
  { version := "20250103000000", name := "more", upPath := "m/c.up.sql",
    downPath := "m/c.down.sql", upBytes := "CREATE TABLE t2(id INT);",
    downBytes := "DROP TABLE t2;", checksum := "ccc3" }

/-- Empty database state used by witnesses. -/
def wSt0 : DBState :=
  { ledger := [], maxReads := 0, upAttempted := [], upCommitted := [],
    downAttempted := [], downCommitted := [] }

/-- Oracle used by witnesses: the script of `wpB` fails, everything else
succeeds. -/
def wExecBFails (fp : FilePair) : ExecOutcome :=
  if fp.name = "add_col" then .execFail else .ok

/-! ### Claims C3, C4, C5 — ApplyUp -/

theorem ordRows_getElemOpt (appliedBy : String) (now : Nat) :
    ∀ (files : List FilePair) (maxOrder : Int) (i : Nat) (fp : FilePair),
      files[i]? = some fp →
      (ordRows appliedBy now maxOrder files)[i]? =
        some (mkUpRow appliedBy now fp (maxOrder + i + 1)) := by
  intro files
  induction files with
  | nil => intro m i fp h; simp at h
  | cons q t ih =>
    intro m i fp h
    match i with
    | 0 =>
      simp only [List.getElem?_cons_zero, Option.some.injEq] at h
      subst h
      simp [ordRows]
    | j + 1 =>
      simp only [List.getElem?_cons_succ] at h
      simp only [ordRows, List.getElem?_cons_succ]
      rw [ih (m + 1) j fp h]
      congr 2
      push_cast
      ring

/-- The failed row the runner records for the change at position
`pre.length` when its script or commit fails. -/
def failedRowFor (appliedBy : String) (now : Nat) (maxOrder : Int) (pre : List FilePair)
    (bad : FilePair) : Row :=
  { mkUpRow appliedBy now bad (maxOrder + pre.length + 1) with status := "failed" }

theorem keyRow_mkUpRow (appliedBy : String) (now : Nat) (fp : FilePair) (ord : Int) :
    keyRow (mkUpRow appliedBy now fp ord) = keyFP fp := rfl

theorem keyRow_failedRowFor (appliedBy : String) (now : Nat) (maxOrder : Int)
    (pre : List FilePair) (bad : FilePair) :
    keyRow (failedRowFor appliedBy now maxOrder pre bad) = keyFP bad := rfl

/-- C3: in a non-dry `ApplyUp`, the first change whose script execution or
commit fails is recorded as a durable `failed` ledger row, its transaction
is not committed, no later pending change is attempted, and the call
returns exactly the rows of the changes applied before it together with a
terminating error. -/
theorem c3_applyUp_failure_stops (exec : FilePair → ExecOutcome) (pre : List FilePair)
    (bad : FilePair) (post : List FilePair) (appliedBy : String) (now : Nat) (st : DBState)
    (hok : ∀ fp ∈ pre, exec fp = .ok)
    (hbad : exec bad = .execFail ∨ exec bad = .commitFail) :
    (∃ msg, ApplyUp exec (pre ++ bad :: post) false appliedBy now st =
      { applied := ordRows appliedBy now (maxExecutionOrder st.ledger) pre,
        err := some msg,
        state := { st with
          maxReads := st.maxReads + 1,
          upAttempted := st.upAttempted ++ pre ++ [bad],
          upCommitted := st.upCommitted ++ pre,
          ledger := upsert
            (upsertAll st.ledger (ordRows appliedBy now (maxExecutionOrder st.ledger) pre))
            (failedRowFor appliedBy now (maxExecutionOrder st.ledger) pre bad) } }) ∧
    findRow (ApplyUp exec (pre ++ bad :: post) false appliedBy now st).state.ledger
      (keyFP bad) =
      some (failedRowFor appliedBy now (maxExecutionOrder st.ledger) pre bad) := by
  obtain ⟨msg, hmsg⟩ := applyUpGo_fail exec appliedBy now pre bad post
    (maxExecutionOrder st.ledger) [] { st with maxReads := st.maxReads + 1 } hok hbad
  have hres : ApplyUp exec (pre ++ bad :: post) false appliedBy now st =
      { applied := ordRows appliedBy now (maxExecutionOrder st.ledger) pre,
        err := some msg,
        state := { st with
          maxReads := st.maxReads + 1,
          upAttempted := st.upAttempted ++ pre ++ [bad],
          upCommitted := st.upCommitted ++ pre,
          ledger := upsert
            (upsertAll st.ledger (ordRows appliedBy now (maxExecutionOrder st.ledger) pre))
            (failedRowFor appliedBy now (maxExecutionOrder st.ledger) pre bad) } } := by
    unfold ApplyUp
    rw [hmsg]
    simp [failedRowFor]
  refine ⟨⟨msg, hres⟩, ?_⟩
  rw [hres]
  exact (keyRow_failedRowFor appliedBy now (maxExecutionOrder st.ledger) pre bad) ▸
    findRow_upsert_self _ _

/-- Witness for C3: with pending `[A, B, C]` where `B`'s script fails, the
returned applied list contains only `A`'s row, a failed row for `B` is in
the ledger, and `C` is never attempted. -/
theorem c3_witness :
    (∃ msg, ApplyUp wExecBFails [wpA, wpB, wpC] false "me" 5 wSt0 =
      { applied := ordRows "me" 5 (maxExecutionOrder wSt0.ledger) [wpA],
        err := some msg,
        state := { wSt0 with
          maxReads := wSt0.maxReads + 1,
          upAttempted := wSt0.upAttempted ++ [wpA] ++ [wpB],
          upCommitted := wSt0.upCommitted ++ [wpA],
          ledger := upsert
            (upsertAll wSt0.ledger (ordRows "me" 5 (maxExecutionOrder wSt0.ledger) [wpA]))
            (failedRowFor "me" 5 (maxExecutionOrder wSt0.ledger) [wpA] wpB) } }) ∧
    findRow (ApplyUp wExecBFails [wpA, wpB, wpC] false "me" 5 wSt0).state.ledger
      (keyFP wpB) =
      some (failedRowFor "me" 5 (maxExecutionOrder wSt0.ledger) [wpA] wpB) :=
  c3_applyUp_failure_stops wExecBFails [wpA] wpB [wpC] "me" 5 wSt0
    (by decide) (Or.inl (by decide))

/-- C4: the ledger's max execution order is read exactly once per `ApplyUp`
invocation (and is 0 on an empty ledger); the i-th change of the pending
list is assigned order `max + i + 1` by pure in-memory increments — for
dry-run rows, for successfully applied rows, and for the failed attempt's
durable row alike. -/
theorem c4_execution_order_assignment :
    maxExecutionOrder [] = 0 ∧
    (∀ (exec : FilePair → ExecOutcome) (files : List FilePair) (dryRun : Bool)
       (appliedBy : String) (now : Nat) (st : DBState),
       (ApplyUp exec files dryRun appliedBy now st).state.maxReads = st.maxReads + 1) ∧
    (∀ (exec : FilePair → ExecOutcome) (files : List FilePair) (appliedBy : String)
       (now : Nat) (st : DBState) (i : Nat) (fp : FilePair),
       files[i]? = some fp →
       (ApplyUp exec files true appliedBy now st).applied[i]? =
         some (mkUpRow appliedBy now fp (maxExecutionOrder st.ledger + i + 1))) ∧
    (∀ (exec : FilePair → ExecOutcome) (files : List FilePair) (appliedBy : String)
       (now : Nat) (st : DBState) (i : Nat) (fp : FilePair),
       (∀ q ∈ files, exec q = .ok) →
       files[i]? = some fp →
       (ApplyUp exec files false appliedBy now st).applied[i]? =
         some (mkUpRow appliedBy now fp (maxExecutionOrder st.ledger + i + 1))) ∧
    (∀ (exec : FilePair → ExecOutcome) (pre : List FilePair) (bad : FilePair)
       (post : List FilePair) (appliedBy : String) (now : Nat) (st : DBState),
       (∀ fp ∈ pre, exec fp = .ok) →
       (exec bad = .execFail ∨ exec bad = .commitFail) →
       findRow (ApplyUp exec (pre ++ bad :: post) false appliedBy now st).state.ledger
           (keyFP bad) =
         some { mkUpRow appliedBy now bad
                  (maxExecutionOrder st.ledger + pre.length + 1) with status := "failed" }) := by
  refine ⟨rfl, ?_, ?_, ?_, ?_⟩
  · intro exec files dryRun appliedBy now st
    unfold ApplyUp
    rw [applyUpGo_maxReads]
  · intro exec files appliedBy now st i fp h
    unfold ApplyUp
    rw [applyUpGo_dry]
    simpa using ordRows_getElemOpt appliedBy now files (maxExecutionOrder st.ledger) i fp h
  · intro exec files appliedBy now st i fp hok h
    unfold ApplyUp
    rw [applyUpGo_ok exec appliedBy now files (maxExecutionOrder st.ledger) [] _ hok]
    simpa using ordRows_getElemOpt appliedBy now files (maxExecutionOrder st.ledger) i fp h
  · intro exec pre bad post appliedBy now st hok hbad
    exact (c3_applyUp_failure_stops exec pre bad post appliedBy now st hok hbad).2

/-- Witness for C4: concrete two-change dry run plus the concrete failing
run of C3's scenario, with max order 0 on the empty ledger. -/
theorem c4_witness :
    maxExecutionOrder [] = 0 ∧
    (ApplyUp wExecBFails [wpA, wpB, wpC] false "me" 5 wSt0).state.maxReads =
      wSt0.maxReads + 1 ∧
    (ApplyUp (fun _ => .ok) [wpA, wpB] true "me" 7 wSt0).applied[1]? =
      some (mkUpRow "me" 7 wpB (maxExecutionOrder wSt0.ledger + 1 + 1)) ∧
    (ApplyUp (fun _ => .ok) [wpA, wpB] false "me" 7 wSt0).applied[1]? =
      some (mkUpRow "me" 7 wpB (maxExecutionOrder wSt0.ledger + 1 + 1)) ∧
    findRow (ApplyUp wExecBFails ([wpA] ++ wpB :: [wpC]) false "me" 5 wSt0).state.ledger
        (keyFP wpB) =
      some { mkUpRow "me" 5 wpB
               (maxExecutionOrder wSt0.ledger + ([wpA] : List FilePair).length + 1) with
             status := "failed" } :=
  ⟨c4_execution_order_assignment.1,
   c4_execution_order_assignment.2.1 wExecBFails [wpA, wpB, wpC] false "me" 5 wSt0,
   c4_execution_order_assignment.2.2.1 (fun _ => .ok) [wpA, wpB] "me" 7 wSt0 1 wpB rfl,
   c4_execution_order_assignment.2.2.2.1 (fun _ => .ok) [wpA, wpB] "me" 7 wSt0 1 wpB
     (by decide) rfl,
   c4_execution_order_assignment.2.2.2.2 wExecBFails [wpA] wpB [wpC] "me" 5 wSt0
     (by decide) (Or.inl (by decide))⟩

/-- C5: a dry-run `ApplyUp` performs no ledger write and no script
execution for any change; it only appends one synthetic success row per
pending change to the returned result, leaving the ledger untouched. -/
theorem c5_applyUp_dryRun_pure (exec : FilePair → ExecOutcome) (files : List FilePair)
    (appliedBy : String) (now : Nat) (st : DBState) :
    (ApplyUp exec files true appliedBy now st).err = none ∧
    (ApplyUp exec files true appliedBy now st).applied =
      ordRows appliedBy now (maxExecutionOrder st.ledger) files ∧
    (∀ r ∈ (ApplyUp exec files true appliedBy now st).applied, r.status = "success") ∧
    (ApplyUp exec files true appliedBy now st).state.ledger = st.ledger ∧
    (ApplyUp exec files true appliedBy now st).state.upAttempted = st.upAttempted ∧
    (ApplyUp exec files true appliedBy now st).state.upCommitted = st.upCommitted := by
  unfold ApplyUp
  rw [applyUpGo_dry]
  refine ⟨rfl, by simp, ?_, rfl, rfl, rfl⟩
  intro r hr
  simp only [List.nil_append] at hr
  exact ordRows_status appliedBy now files _ r hr

/-! ### Claims C1, C2 — Planner classification and drift -/

/-- Per-pair pending classification: pending iff the pair's own ledger
entry is absent or failed.  This function sees nothing but the pair's own
lookup result. -/
def pendingClass (applied : String → Option Row) (fp : FilePair) : Bool :=
  match applied (keyFP fp) with
  | none => true
  | some row => row.status == "failed"

theorem planPending_ok_filter :
    ∀ (all : List FilePair) (applied : String → Option Row) (pending : List FilePair),
      planPending all applied = .ok pending →
      pending = all.filter (pendingClass applied) := by
  intro all
  induction all with
  | nil =>
    intro applied pending h
    simp only [planPending] at h
    cases h
    rfl
  | cons fp rest ih =>
    intro applied pending h
    rw [planPending] at h
    cases happ : applied (keyFP fp) with
    | none =>
      rw [happ] at h
      cases hrec : planPending rest applied with
      | error e => rw [hrec] at h; simp [Except.map] at h
      | ok l =>
        rw [hrec] at h
        simp only [Except.map, Except.ok.injEq] at h
        subst h
        rw [List.filter_cons_of_pos (by simp [pendingClass, happ])]
        rw [ih applied l hrec]
    | some row =>
      rw [happ] at h
      dsimp only at h
      by_cases hdrift : (row.status == "success" && ! equalFold row.checksum fp.checksum) = true
      · rw [if_pos hdrift] at h
        cases h
      · rw [if_neg hdrift] at h
        by_cases hfail : (row.status == "failed") = true
        · rw [if_pos hfail] at h
          cases hrec : planPending rest applied with
          | error e => rw [hrec] at h; simp [Except.map] at h
          | ok l =>
            rw [hrec] at h
            simp only [Except.map, Except.ok.injEq] at h
            subst h
            rw [List.filter_cons_of_pos (by simp [pendingClass, happ, hfail])]
            rw [ih applied l hrec]
        · rw [if_neg hfail] at h
          rw [List.filter_cons_of_neg (by simp [pendingClass, happ]; simpa using hfail)]
          exact ih applied pending h

/-- C1: whenever planning returns a plan, the pending list is exactly the
discovered pairs filtered by their own ledger entry — pending iff no entry
exists or the entry's status is `failed`; a successful (fingerprint-
matching) entry excludes the pair, and no comparison with other entries is
involved. -/
theorem c1_pending_classification (all : List FilePair) (applied : String → Option Row)
    (pending : List FilePair) (h : planPending all applied = .ok pending) :
    pending = all.filter (pendingClass applied) ∧
    (∀ fp, fp ∈ pending ↔ fp ∈ all ∧
      (applied (keyFP fp) = none ∨ ∃ row, applied (keyFP fp) = some row ∧
        row.status = "failed")) := by
  have heq := planPending_ok_filter all applied pending h
  refine ⟨heq, ?_⟩
  intro fp
  rw [heq, List.mem_filter]
  constructor
  · rintro ⟨hmem, hcls⟩
    refine ⟨hmem, ?_⟩
    unfold pendingClass at hcls
    cases happ : applied (keyFP fp) with
    | none => exact Or.inl rfl
    | some row =>
      rw [happ] at hcls
      exact Or.inr ⟨row, rfl, by simpa using hcls⟩
  · rintro ⟨hmem, hcases⟩
    refine ⟨hmem, ?_⟩
    unfold pendingClass
    rcases hcases with hnone | ⟨row, hrow, hst⟩
    · simp [hnone]
    · simp [hrow, hst]

/-- Concrete applied map for the C1 witness: a successful entry for `wpA`
whose recorded checksum matches `wpA`'s only up to ASCII case. -/
def wApl (k : String) : Option Row :=
  if k = keyFP wpA then
    some { version := wpA.version, name := wpA.name, checksum := "AAA1", appliedAt := 0,
           appliedBy := "x", durationMS := 1, status := "success", executionOrder := 1 }
  else none

/-- Witness for C1: with `wpA` recorded successfully (case-insensitively
matching checksum) and `wpB` unrecorded, pending is exactly `[wpB]`. -/
theorem c1_witness :
    ([wpB] : List FilePair) = List.filter (pendingClass wApl) [wpA, wpB] :=
  (c1_pending_classification [wpA, wpB] wApl [wpB] rfl).1

theorem planPending_drift_iff :
    ∀ (all : List FilePair) (applied : String → Option Row),
      (∃ fp ∈ all, ∃ row, applied (keyFP fp) = some row ∧ row.status = "success" ∧
        equalFold row.checksum fp.checksum = false) ↔
      (∃ k a b, planPending all applied = .error (.drift k a b)) := by
  intro all
  induction all with
  | nil =>
    intro applied
    simp [planPending]
  | cons fp rest ih =>
    intro applied
    rw [planPending]
    cases happ : applied (keyFP fp) with
    | none =>
      constructor
      · rintro ⟨q, hq, row, hrow, hst, hfold⟩
        rcases List.mem_cons.mp hq with hq1 | hq2
        · rw [hq1, happ] at hrow; cases hrow
        · obtain ⟨k, a, b, hk⟩ := (ih applied).mp ⟨q, hq2, row, hrow, hst, hfold⟩
          exact ⟨k, a, b, by rw [hk]; rfl⟩
      · rintro ⟨k, a, b, hk⟩
        cases hrec : planPending rest applied with
        | error e =>
          rw [hrec] at hk
          simp only [Except.map] at hk
          cases hk
          obtain ⟨q, hq, row, hrow, hst, hfold⟩ := (ih applied).mpr ⟨k, a, b, hrec⟩
          exact ⟨q, List.mem_cons_of_mem fp hq, row, hrow, hst, hfold⟩
        | ok l =>
          rw [hrec] at hk
          simp [Except.map] at hk
    | some row =>
      dsimp only
      by_cases hdrift : (row.status == "success" && ! equalFold row.checksum fp.checksum) = true
      · rw [if_pos hdrift]
        simp only [Bool.and_eq_true, beq_iff_eq, Bool.not_eq_eq_eq_not, Bool.not_true] at hdrift
        constructor
        · intro _
          exact ⟨keyFP fp, row.checksum, fp.checksum, rfl⟩
        · intro _
          exact ⟨fp, List.mem_cons_self fp rest, row, happ, hdrift.1, hdrift.2⟩
      · rw [if_neg hdrift]
        have hnotfp : ¬ (row.status = "success" ∧ equalFold row.checksum fp.checksum = false) := by
          intro ⟨h1, h2⟩
          exact hdrift (by simp [h1, h2])
        have hstep : (∃ q ∈ fp :: rest, ∃ r, applied (keyFP q) = some r ∧
            r.status = "success" ∧ equalFold r.checksum q.checksum = false) ↔
            (∃ q ∈ rest, ∃ r, applied (keyFP q) = some r ∧
            r.status = "success" ∧ equalFold r.checksum q.checksum = false) := by
          constructor
          · rintro ⟨q, hq, r, hrow, hst, hfold⟩
            rcases List.mem_cons.mp hq with hq1 | hq2
            · subst hq1
              rw [happ] at hrow
              cases hrow
              exact absurd ⟨hst, hfold⟩ hnotfp
            · exact ⟨q, hq2, r, hrow, hst, hfold⟩
          · rintro ⟨q, hq, r, hrow, hst, hfold⟩
            exact ⟨q, List.mem_cons_of_mem fp hq, r, hrow, hst, hfold⟩
        rw [hstep, ih applied]
        by_cases hfail : (row.status == "failed") = true
        · rw [if_pos hfail]
          constructor
          · rintro ⟨k, a, b, hk⟩
            exact ⟨k, a, b, by rw [hk]; rfl⟩
          · rintro ⟨k, a, b, hk⟩
            cases hrec : planPending rest applied with
            | error e =>
              rw [hrec] at hk
              have he : (Except.error e : Except MigErr (List FilePair)) =
                  .error (.drift k a b) := hk
              rw [Except.error.injEq] at he
              exact ⟨k, a, b, by rw [he]⟩
            | ok l =>
              rw [hrec] at hk
              exact Except.noConfusion (show (Except.ok (fp :: l) :
                Except MigErr (List FilePair)) = .error (.drift k a b) from hk)
        · rw [if_neg hfail]

/-- C2: planning fails with the drift error exactly when some discovered
pair has a successful ledger entry whose recorded fingerprint differs from
the pair's current one under case-insensitive comparison; on such an error
`DiscoverAndPlan` returns no plan at all. -/
theorem c2_drift_error_no_partial_plan :
    (∀ (all : List FilePair) (applied : String → Option Row),
      (∃ fp ∈ all, ∃ row, applied (keyFP fp) = some row ∧ row.status = "success" ∧
        equalFold row.checksum fp.checksum = false) ↔
      (∃ k a b, planPending all applied = .error (.drift k a b))) ∧
    (∀ (entries : List DirEntry) (full content hash : String → String)
       (ledger : List Row) (m : List (String × Pair)) (e : MigErr),
      scanMap entries full = .ok m →
      planPending (buildAll m content hash) (findRow ledger) = .error e →
      DiscoverAndPlan entries full content hash ledger = .error e) := by
  refine ⟨planPending_drift_iff, ?_⟩
  intro entries full content hash ledger m e hscan hplan
  unfold DiscoverAndPlan
  rw [hscan]
  dsimp only
  rw [hplan]

/-- Directory listing fixture for witnesses: one complete pair. -/
def wEnts : List DirEntry :=
  [ { name := "20250101000000_init.up.sql", isDir := false },
    { name := "20250101000000_init.down.sql", isDir := false } ]

/-- Path-joining fixture. -/
def wFull (s : String) : String := "migrations/" ++ s

/-- File contents fixture. -/
def wContent (p : String) : String :=
  if p = "migrations/20250101000000_init.up.sql" then "CREATE" else "DROP"

/-- Hash fixture (injective on the contents used here). -/
def wHash (s : String) : String := "h-" ++ s

/-- Ledger fixture with a drifted successful entry for the discovered pair. -/
def wRowDrift : Row :=
  { version := "20250101000000", name := "init", checksum := "different", appliedAt := 0,
    appliedBy := "x", durationMS := 1, status := "success", executionOrder := 1 }

/-- The map the scanner produces for `wEnts`. -/
def wScanned : List (String × Pair) :=
  [ ("20250101000000:init",
     { version := "20250101000000", name := "init",
       upPath := "migrations/20250101000000_init.up.sql",
       downPath := "migrations/20250101000000_init.down.sql" }) ]

/-- Witness for C2: the drifted entry makes `DiscoverAndPlan` fail with the
drift error carrying both checksums. -/
theorem c2_witness :
    DiscoverAndPlan wEnts wFull wContent wHash [wRowDrift] =
      .error (.drift "20250101000000:init" "different" "h-CREATE") :=
  c2_drift_error_no_partial_plan.2 wEnts wFull wContent wHash [wRowDrift] wScanned
    (.drift "20250101000000:init" "different" "h-CREATE") rfl rfl

/-! ### Claim C9 — repairChecksums -/

/-- Per-pair repair classification as the CLI code performs it: an entry
exists (any status) and its checksum differs case-insensitively. -/
def repairClass (applied : String → Option Row) (fp : FilePair) : Bool :=
  match applied (keyFP fp) with
  | none => false
  | some row => ! equalFold row.checksum fp.checksum

theorem findRow_wf (rows : List Row) (k : String) (row : Row)
    (h : findRow rows k = some row) : keyRow row = k := by
  have := List.find?_some h
  simpa using this

theorem repairChecksums_count :
    ∀ (all : List FilePair) (applied : String → Option Row) (dry : Bool) (now : Nat)
      (ledger : List Row),
      (repairChecksums all applied dry now ledger).1 =
        (all.filter (repairClass applied)).length := by
  intro all
  induction all with
  | nil => intro applied dry now ledger; rfl
  | cons fp rest ih =>
    intro applied dry now ledger
    rw [repairChecksums]
    cases happ : applied (keyFP fp) with
    | none =>
      rw [List.filter_cons_of_neg (by simp [repairClass, happ])]
      exact ih applied dry now ledger
    | some row =>
      dsimp only
      by_cases hfold : equalFold row.checksum fp.checksum = true
      · rw [if_pos hfold, List.filter_cons_of_neg (by simp [repairClass, happ, hfold])]
        exact ih applied dry now ledger
      · rw [if_neg hfold, List.filter_cons_of_pos
          (by simp [repairClass, happ]; simpa using hfold)]
        by_cases hdry : dry
        · rw [if_pos hdry]
          simp [ih applied dry now ledger]
        · rw [if_neg hdry]
          simp [ih applied dry now]

theorem repairChecksums_dry_ledger :
    ∀ (all : List FilePair) (applied : String → Option Row) (now : Nat)
      (ledger : List Row),
      (repairChecksums all applied true now ledger).2 = ledger := by
  intro all
  induction all with
  | nil => intro applied now ledger; rfl
  | cons fp rest ih =>
    intro applied now ledger
    rw [repairChecksums]
    cases happ : applied (keyFP fp) with
    | none => exact ih applied now ledger
    | some row =>
      dsimp only
      by_cases hfold : equalFold row.checksum fp.checksum = true
      · rw [if_pos hfold]
        exact ih applied now ledger
      · rw [if_neg hfold, if_pos rfl]
        simp [ih applied now ledger]

theorem repairChecksums_preserves {applied : String → Option Row}
    (hwf : ∀ k row, applied k = some row → keyRow row = k) :
    ∀ (all : List FilePair) (now : Nat) (ledger : List Row) (k : String),
      (∀ fp ∈ all, keyFP fp ≠ k) →
      findRow (repairChecksums all applied false now ledger).2 k = findRow ledger k := by
  intro all
  induction all with
  | nil => intro now ledger k _; rfl
  | cons fp rest ih =>
    intro now ledger k hk
    rw [repairChecksums]
    cases happ : applied (keyFP fp) with
    | none => exact ih now ledger k (fun q hq => hk q (List.mem_cons_of_mem fp hq))
    | some row =>
      dsimp only
      by_cases hfold : equalFold row.checksum fp.checksum = true
      · rw [if_pos hfold]
        exact ih now ledger k (fun q hq => hk q (List.mem_cons_of_mem fp hq))
      · rw [if_neg hfold, if_neg (by simp)]
        have hkey : keyRow { row with checksum := fp.checksum, appliedAt := now } ≠ k := by
          have h1 : keyRow row = keyFP fp := hwf _ row happ
          have : keyRow { row with checksum := fp.checksum, appliedAt := now } = keyRow row := rfl
          rw [this, h1]
          exact hk fp (List.mem_cons_self fp rest)
        simp only []
        rw [ih now _ k (fun q hq => hk q (List.mem_cons_of_mem fp hq))]
        exact findRow_upsert_other ledger _ hkey

theorem repairChecksums_written {applied : String → Option Row}
    (hwf : ∀ k row, applied k = some row → keyRow row = k) :
    ∀ (all : List FilePair) (now : Nat) (ledger : List Row),
      (all.map keyFP).Nodup →
      ∀ fp ∈ all, ∀ row, applied (keyFP fp) = some row →
        equalFold row.checksum fp.checksum = false →
        findRow (repairChecksums all applied false now ledger).2 (keyFP fp) =
          some { row with checksum := fp.checksum, appliedAt := now } := by
  intro all
  induction all with
  | nil => intro now ledger _ fp h; simp at h
  | cons q rest ih =>
    intro now ledger hnd fp hfp row hrow hfold
    simp only [List.map_cons, List.nodup_cons] at hnd
    rcases List.mem_cons.mp hfp with hq | hrest
    · subst hq
      rw [repairChecksums, hrow]
      dsimp only
      rw [if_neg (by simp [hfold]), if_neg (by simp)]
      have hkey : keyRow { row with checksum := fp.checksum, appliedAt := now } = keyFP fp :=
        hwf _ row hrow
      rw [repairChecksums_preserves hwf rest now _ (keyFP fp)
        (fun x hx hk => hnd.1 (by rw [← hk]; exact List.mem_map_of_mem keyFP hx))]
      rw [← hkey]
      exact findRow_upsert_self ledger _
    · rw [repairChecksums]
      cases happ : applied (keyFP q) with
      | none => exact ih now ledger hnd.2 fp hrest row hrow hfold
      | some rowq =>
        dsimp only
        by_cases hfoldq : equalFold rowq.checksum q.checksum = true
        · rw [if_pos hfoldq]
          exact ih now ledger hnd.2 fp hrest row hrow hfold
        · rw [if_neg hfoldq, if_neg (by simp)]
          exact ih now _ hnd.2 fp hrest row hrow hfold

theorem repairChecksums_no_entry {applied : String → Option Row}
    (hwf : ∀ k row, applied k = some row → keyRow row = k) :
    ∀ (all : List FilePair) (now : Nat) (ledger : List Row) (k : String),
      applied k = none →
      findRow (repairChecksums all applied false now ledger).2 k = findRow ledger k := by
  intro all
  induction all with
  | nil => intro now ledger k _; rfl
  | cons fp rest ih =>
    intro now ledger k hk
    rw [repairChecksums]
    cases happ : applied (keyFP fp) with
    | none => exact ih now ledger k hk
    | some row =>
      dsimp only
      by_cases hfold : equalFold row.checksum fp.checksum = true
      · rw [if_pos hfold]
        exact ih now ledger k hk
      · rw [if_neg hfold, if_neg (by simp)]
        have hkey : keyRow { row with checksum := fp.checksum, appliedAt := now } ≠ k := by
          have h1 : keyRow row = keyFP fp := hwf _ row happ
          intro hc
          have hc2 : keyRow row = k := hc
          rw [h1] at hc2
          rw [hc2] at happ
          rw [happ] at hk
          cases hk
        rw [ih now _ k hk]
        exact findRow_upsert_other ledger _ hkey

theorem repairChecksums_fold_equal {applied : String → Option Row}
    (hwf : ∀ k row, applied k = some row → keyRow row = k) :
    ∀ (all : List FilePair) (now : Nat) (ledger : List Row),
      (all.map keyFP).Nodup →
      ∀ fp ∈ all, ∀ row, applied (keyFP fp) = some row →
        equalFold row.checksum fp.checksum = true →
        findRow (repairChecksums all applied false now ledger).2 (keyFP fp) =
          findRow ledger (keyFP fp) := by
  intro all
  induction all with
  | nil => intro now ledger _ fp h; simp at h
  | cons q rest ih =>
    intro now ledger hnd fp hfp row hrow hfold
    simp only [List.map_cons, List.nodup_cons] at hnd
    rcases List.mem_cons.mp hfp with hq | hrest
    · subst hq
      rw [repairChecksums, hrow]
      dsimp only
      rw [if_pos hfold]
      exact repairChecksums_preserves hwf rest now ledger (keyFP fp)
        (fun x hx hk => hnd.1 (by rw [← hk]; exact List.mem_map_of_mem keyFP hx))
    · rw [repairChecksums]
      cases happ : applied (keyFP q) with
      | none => exact ih now ledger hnd.2 fp hrest row hrow hfold
      | some rowq =>
        dsimp only
        by_cases hfoldq : equalFold rowq.checksum q.checksum = true
        · rw [if_pos hfoldq]
          exact ih now ledger hnd.2 fp hrest row hrow hfold
        · rw [if_neg hfoldq, if_neg (by simp)]
          have hkeyq : keyRow { rowq with checksum := q.checksum, appliedAt := now } ≠ keyFP fp := by
            have h1 : keyRow rowq = keyFP q := hwf _ rowq happ
            intro hc
            have hc2 : keyRow rowq = keyFP fp := hc
            rw [h1] at hc2
            exact hnd.1 (by rw [hc2]; exact List.mem_map_of_mem keyFP hrest)
          rw [ih now _ hnd.2 fp hrest row hrow hfold]
          exact findRow_upsert_other ledger _ hkeyq

/-- Ledger row fixture: a failed entry for `wpA` with an outdated checksum. -/
def wRowFailedOld : Row :=
  { version := wpA.version, name := wpA.name, checksum := "old", appliedAt := 0,
    appliedBy := "x", durationMS := 1, status := "failed", executionOrder := 1 }

/-- C9 counterexample: the repair helper also overwrites and counts entries
whose status is `failed`, not only successful ones — with a single failed,
checksum-differing entry the claim predicts count 0 and an untouched
ledger, but the code returns count 1 and rewrites the row. -/
theorem c9_counterexample :
    wRowFailedOld.status ≠ "success" ∧
    equalFold wRowFailedOld.checksum wpA.checksum = false ∧
    (repairChecksums [wpA] (findRow [wRowFailedOld]) false 9 [wRowFailedOld]).1 = 1 ∧
    (repairChecksums [wpA] (findRow [wRowFailedOld]) false 9 [wRowFailedOld]).2 =
      [{ wRowFailedOld with checksum := wpA.checksum, appliedAt := 9 }] := by
  refine ⟨by decide, by decide, rfl, rfl⟩

/-- C9 (amended): repair overwrites the stored fingerprint and re-timestamps
exactly for pairs with an existing ledger entry of any status whose
fingerprint differs case-insensitively; pairs with no entry are untouched
and never gain an entry; the count equals the number of differing entries;
dry-run computes the count without writing. -/
theorem c9_repair_semantics :
    (∀ (all : List FilePair) (applied : String → Option Row) (dry : Bool) (now : Nat)
       (ledger : List Row),
       (repairChecksums all applied dry now ledger).1 =
         (all.filter (repairClass applied)).length) ∧
    (∀ (all : List FilePair) (applied : String → Option Row) (now : Nat)
       (ledger : List Row),
       (repairChecksums all applied true now ledger).2 = ledger) ∧
    (∀ (all : List FilePair) (applied : String → Option Row) (now : Nat)
       (ledger : List Row) (k : String),
       (∀ k' row, applied k' = some row → keyRow row = k') →
       applied k = none →
       findRow (repairChecksums all applied false now ledger).2 k = findRow ledger k) ∧
    (∀ (all : List FilePair) (applied : String → Option Row) (now : Nat)
       (ledger : List Row),
       (∀ k' row, applied k' = some row → keyRow row = k') →
       (all.map keyFP).Nodup →
       ∀ fp ∈ all, ∀ row, applied (keyFP fp) = some row →
         (equalFold row.checksum fp.checksum = false →
           findRow (repairChecksums all applied false now ledger).2 (keyFP fp) =
             some { row with checksum := fp.checksum, appliedAt := now }) ∧
         (equalFold row.checksum fp.checksum = true →
           findRow (repairChecksums all applied false now ledger).2 (keyFP fp) =
             findRow ledger (keyFP fp))) := by
  refine ⟨repairChecksums_count, repairChecksums_dry_ledger, ?_, ?_⟩
  · intro all applied now ledger k hwf hk
    exact repairChecksums_no_entry hwf all now ledger k hk
  · intro all applied now ledger hwf hnd fp hfp row hrow
    exact ⟨repairChecksums_written hwf all now ledger hnd fp hfp row hrow,
           repairChecksums_fold_equal hwf all now ledger hnd fp hfp row hrow⟩

/-- Witness for the amended C9: one differing entry is rewritten in place
(count 1), while the dry-run leaves the ledger untouched. -/
theorem c9_witness :
    (repairChecksums [wpA] (findRow [wRowFailedOld]) false 9 [wRowFailedOld]).1 =
      (([wpA] : List FilePair).filter (repairClass (findRow [wRowFailedOld]))).length ∧
    (repairChecksums [wpA] (findRow [wRowFailedOld]) true 9 [wRowFailedOld]).2 =
      [wRowFailedOld] ∧
    findRow (repairChecksums [wpA] (findRow [wRowFailedOld]) false 9 [wRowFailedOld]).2
        (keyFP wpA) =
      some { wRowFailedOld with checksum := wpA.checksum, appliedAt := 9 } :=
  ⟨c9_repair_semantics.1 [wpA] (findRow [wRowFailedOld]) false 9 [wRowFailedOld],
   c9_repair_semantics.2.1 [wpA] (findRow [wRowFailedOld]) 9 [wRowFailedOld],
   ((c9_repair_semantics.2.2.2 [wpA] (findRow [wRowFailedOld]) 9 [wRowFailedOld]
      (findRow_wf [wRowFailedOld]) (by decide) wpA (by decide) wRowFailedOld rfl).1
      (by decide))⟩

/-! ### Claim C6 — ApplyDown -/

/-- Dry-run `ApplyDown` over fully resolvable rows does nothing at all. -/
theorem applyDown_dry_ok (exec : FilePair → ExecOutcome) (lookup : String → Option FilePair) :
    ∀ (rows : List Row) (st : DBState),
      (∀ r ∈ rows, (lookup (keyRow r)).isSome = true) →
      ApplyDown exec rows lookup true st = (none, st) := by
  intro rows
  induction rows with
  | nil => intro st _; rfl
  | cons r rest ih =>
    intro st h
    have hr := h r (List.mem_cons_self r rest)
    cases hl : lookup (keyRow r) with
    | none => rw [hl] at hr; cases hr
    | some fp =>
      rw [ApplyDown, hl]
      dsimp only
      rw [if_pos rfl]
      exact ih st (fun q hq => h q (List.mem_cons_of_mem r hq))

/-- Dry-run `ApplyDown` still hard-errors on the first row with no matching
pair, leaving the state untouched. -/
theorem applyDown_dry_missing (exec : FilePair → ExecOutcome)
    (lookup : String → Option FilePair) :
    ∀ (pre : List Row) (row : Row) (post : List Row) (st : DBState),
      (∀ r ∈ pre, (lookup (keyRow r)).isSome = true) →
      lookup (keyRow row) = none →
      ApplyDown exec (pre ++ row :: post) lookup true st =
        (some ("missing down file for " ++ keyRow row), st) := by
  intro pre
  induction pre with
  | nil =>
    intro row post st _ hmiss
    rw [List.nil_append, ApplyDown, hmiss]
  | cons r rest ih =>
    intro row post st h hmiss
    have hr := h r (List.mem_cons_self r rest)
    cases hl : lookup (keyRow r) with
    | none => rw [hl] at hr; cases hr
    | some fp =>
      rw [List.cons_append, ApplyDown, hl]
      dsimp only
      rw [if_pos rfl]
      exact ih row post st (fun q hq => h q (List.mem_cons_of_mem r hq)) hmiss

/-- Traversing a fully successful head segment in a non-dry `ApplyDown`:
each resolved backward script is executed, committed, and its ledger row
deleted. -/
theorem applyDown_append (exec : FilePair → ExecOutcome)
    (lookup : String → Option FilePair) :
    ∀ (pre : List Row) (rows2 : List Row) (st : DBState),
      (∀ r ∈ pre, ∃ fp, lookup (keyRow r) = some fp ∧ exec fp = .ok) →
      ApplyDown exec (pre ++ rows2) lookup false st =
        ApplyDown exec rows2 lookup false { st with
          downAttempted := st.downAttempted ++ pre.filterMap (fun r => lookup (keyRow r)),
          downCommitted := st.downCommitted ++ pre.filterMap (fun r => lookup (keyRow r)),
          ledger := deleteAll st.ledger pre } := by
  intro pre
  induction pre with
  | nil =>
    intro rows2 st _
    simp [deleteAll]
  | cons r rest ih =>
    intro rows2 st h
    obtain ⟨fp, hl, hok⟩ := h r (List.mem_cons_self r rest)
    rw [List.cons_append, ApplyDown, hl]
    dsimp only
    rw [if_neg (by simp), hok]
    rw [ih rows2 _ (fun q hq => h q (List.mem_cons_of_mem r hq))]
    simp [deleteAll_cons, List.filterMap_cons, hl, List.append_assoc]

/-- C6: a row whose `(version,name)` resolves to no discovered pair makes
`ApplyDown` fail without deleting that row — also under dry-run; rows whose
backward script runs and commits have their ledger entry deleted; a
backward execution or commit failure aborts the whole reversion, leaves
that row's entry in place, and does not touch later rows. -/
theorem c6_applyDown_semantics :
    (∀ (exec : FilePair → ExecOutcome) (lookup : String → Option FilePair)
       (pre : List Row) (row : Row) (post : List Row) (st : DBState),
       (∀ r ∈ pre, (lookup (keyRow r)).isSome = true) →
       lookup (keyRow row) = none →
       ApplyDown exec (pre ++ row :: post) lookup true st =
         (some ("missing down file for " ++ keyRow row), st)) ∧
    (∀ (exec : FilePair → ExecOutcome) (lookup : String → Option FilePair)
       (pre : List Row) (row : Row) (post : List Row) (st : DBState),
       (∀ r ∈ pre, ∃ fp, lookup (keyRow r) = some fp ∧ exec fp = .ok) →
       lookup (keyRow row) = none →
       keyRow row ∉ pre.map keyRow →
       (ApplyDown exec (pre ++ row :: post) lookup false st).1 =
         some ("missing down file for " ++ keyRow row) ∧
       findRow (ApplyDown exec (pre ++ row :: post) lookup false st).2.ledger
           (keyRow row) = findRow st.ledger (keyRow row)) ∧
    (∀ (exec : FilePair → ExecOutcome) (lookup : String → Option FilePair)
       (rows : List Row) (st : DBState),
       (∀ r ∈ rows, ∃ fp, lookup (keyRow r) = some fp ∧ exec fp = .ok) →
       (ApplyDown exec rows lookup false st).1 = none ∧
       ∀ r ∈ rows,
         findRow (ApplyDown exec rows lookup false st).2.ledger (keyRow r) = none) ∧
    (∀ (exec : FilePair → ExecOutcome) (lookup : String → Option FilePair)
       (pre : List Row) (row : Row) (post : List Row) (fp : FilePair) (st : DBState),
       (∀ r ∈ pre, ∃ q, lookup (keyRow r) = some q ∧ exec q = .ok) →
       lookup (keyRow row) = some fp →
       (exec fp = .execFail ∨ exec fp = .commitFail) →
       keyRow row ∉ pre.map keyRow →
       (ApplyDown exec (pre ++ row :: post) lookup false st).1.isSome = true ∧
       findRow (ApplyDown exec (pre ++ row :: post) lookup false st).2.ledger
           (keyRow row) = findRow st.ledger (keyRow row) ∧
       (ApplyDown exec (pre ++ row :: post) lookup false st).2.downAttempted =
         st.downAttempted ++ pre.filterMap (fun r => lookup (keyRow r)) ++ [fp] ∧
       (ApplyDown exec (pre ++ row :: post) lookup false st).2.downCommitted =
         st.downCommitted ++ pre.filterMap (fun r => lookup (keyRow r))) := by
  refine ⟨applyDown_dry_missing, ?_, ?_, ?_⟩
  · intro exec lookup pre row post st hpre hmiss hnotin
    rw [applyDown_append exec lookup pre (row :: post) st hpre]
    rw [ApplyDown, hmiss]
    refine ⟨rfl, ?_⟩
    exact findRow_deleteAll_other pre st.ledger
      (fun r hr hk => hnotin (by rw [← hk]; exact List.mem_map_of_mem keyRow hr))
  · intro exec lookup rows st hall
    have h := applyDown_append exec lookup rows [] st hall
    rw [List.append_nil] at h
    rw [h]
    refine ⟨rfl, ?_⟩
    intro r hr
    exact findRow_deleteAll_mem rows st.ledger ⟨r, hr, rfl⟩
  · intro exec lookup pre row post fp st hpre hl hfail hnotin
    rw [applyDown_append exec lookup pre (row :: post) st hpre]
    rw [ApplyDown, hl]
    dsimp only
    rw [if_neg (by simp)]
    have hpres : findRow (deleteAll st.ledger pre) (keyRow row) =
        findRow st.ledger (keyRow row) :=
      findRow_deleteAll_other pre st.ledger
        (fun r hr hk => hnotin (by rw [← hk]; exact List.mem_map_of_mem keyRow hr))
    rcases hfail with hf | hf <;> rw [hf] <;>
      exact ⟨rfl, hpres, rfl, rfl⟩

/-- Ledger row fixture matching `wpA` as a successful applied entry. -/
def wRowAApplied : Row :=
  { version := wpA.version, name := wpA.name, checksum := "aaa1", appliedAt := 3,
    appliedBy := "x", durationMS := 2, status := "success", executionOrder := 1 }

/-- Lookup fixture resolving only `wpA`'s key. -/
def wLookupA (k : String) : Option FilePair :=
  if k = keyFP wpA then some wpA else none

/-- Witness for C6: a dry-run reversion of an unknown row errors without
touching the state; reverting `wRowAApplied` deletes its entry; a failing
backward script leaves the entry in place. -/
theorem c6_witness :
    (ApplyDown (fun _ => .ok) ([] ++ wRowFailedOld :: []) (fun _ => none) true wSt0 =
      (some ("missing down file for " ++ keyRow wRowFailedOld), wSt0)) ∧
    (ApplyDown (fun _ => .ok) [wRowAApplied] wLookupA false
        { wSt0 with ledger := [wRowAApplied] }).1 = none ∧
    findRow (ApplyDown (fun _ => .ok) [wRowAApplied] wLookupA false
        { wSt0 with ledger := [wRowAApplied] }).2.ledger (keyRow wRowAApplied) = none ∧
    findRow (ApplyDown (fun _ => .execFail) ([] ++ wRowAApplied :: []) wLookupA false
        { wSt0 with ledger := [wRowAApplied] }).2.ledger (keyRow wRowAApplied) =
      findRow [wRowAApplied] (keyRow wRowAApplied) :=
  ⟨c6_applyDown_semantics.1 (fun _ => .ok) (fun _ => none) [] wRowFailedOld [] wSt0
     (by simp) rfl,
   (c6_applyDown_semantics.2.2.1 (fun _ => .ok) wLookupA [wRowAApplied]
     { wSt0 with ledger := [wRowAApplied] }
     (by intro r hr; rw [List.mem_singleton] at hr; subst hr; exact ⟨wpA, rfl, rfl⟩)).1,
   (c6_applyDown_semantics.2.2.1 (fun _ => .ok) wLookupA [wRowAApplied]
     { wSt0 with ledger := [wRowAApplied] }
     (by intro r hr; rw [List.mem_singleton] at hr; subst hr; exact ⟨wpA, rfl, rfl⟩)).2
     wRowAApplied (List.mem_singleton.mpr rfl),
   (c6_applyDown_semantics.2.2.2 (fun _ => .execFail) wLookupA [] wRowAApplied [] wpA
     { wSt0 with ledger := [wRowAApplied] } (by simp) rfl (Or.inl rfl) (by simp)).2.1⟩

/-! ### Claim C10 — ForceBaseline -/

/-- Characterization of the `ForceBaseline` loop: pairs above the target
version are skipped without consuming an order; the remaining pairs each
get the next order and a success upsert, with the forward script attempted
and committed exactly when `fake` is false. -/
theorem forceBaselineGo_char (exec : FilePair → ExecOutcome) (appliedBy : String)
    (now : Nat) (version : String) (fake : Bool) :
    ∀ (all : List FilePair) (maxOrder : Int) (applied : List Row) (st : DBState),
      (fake = true ∨
        ∀ fp ∈ all.filter (fun fp => ! strLt version fp.version), exec fp = .ok) →
      forceBaselineGo exec appliedBy now version fake all maxOrder applied st =
        { applied := applied ++ ordRows appliedBy now maxOrder
            (all.filter (fun fp => ! strLt version fp.version)),
          err := none,
          state := { st with
            upAttempted := st.upAttempted ++
              (if fake then [] else all.filter (fun fp => ! strLt version fp.version)),
            upCommitted := st.upCommitted ++
              (if fake then [] else all.filter (fun fp => ! strLt version fp.version)),
            ledger := upsertAll st.ledger (ordRows appliedBy now maxOrder
              (all.filter (fun fp => ! strLt version fp.version))) } } := by
  intro all
  induction all with
  | nil =>
    intro maxOrder applied st _
    cases fake <;> simp [forceBaselineGo, ordRows, upsertAll]
  | cons fp rest ih =>
    intro maxOrder applied st hok
    rw [forceBaselineGo]
    by_cases hskip : strLt version fp.version = true
    · rw [if_pos hskip, List.filter_cons_of_neg (by simp [hskip])]
      exact ih maxOrder applied st (by
        rcases hok with h | h
        · exact Or.inl h
        · exact Or.inr (by
            rw [List.filter_cons_of_neg (by simp [hskip])] at h
            exact h))
    · rw [if_neg hskip, List.filter_cons_of_pos (by simp [hskip])]
      have hok' : fake = true ∨
          ∀ q ∈ rest.filter (fun q => ! strLt version q.version), exec q = .ok := by
        rcases hok with h | h
        · exact Or.inl h
        · refine Or.inr (fun q hq => h q ?_)
          rw [List.filter_cons_of_pos (by simp [hskip])]
          exact List.mem_cons_of_mem fp hq
      by_cases hfake : fake = true
      · subst hfake
        rw [if_pos rfl]
        rw [ih (maxOrder + 1) (applied ++ [mkUpRow appliedBy now fp (maxOrder + 1)]) _ hok']
        simp [ordRows, upsertAll_cons, List.append_assoc]
      · rw [if_neg hfake]
        have hfp : exec fp = .ok := by
          rcases hok with h | h
          · exact absurd h hfake
          · exact h fp (by
              rw [List.filter_cons_of_pos (by simp [hskip])]
              exact List.mem_cons_self fp _)
        rw [hfp]
        dsimp only
        rw [ih (maxOrder + 1) (applied ++ [mkUpRow appliedBy now fp (maxOrder + 1)]) _ hok']
        have hf : (if fake then ([] : List FilePair) else
            rest.filter (fun q => ! strLt version q.version)) =
            rest.filter (fun q => ! strLt version q.version) := by
          rw [if_neg hfake]
        simp [ordRows, upsertAll_cons, List.append_assoc, hf, hfake]

/-- C10: `ForceBaseline` never consults existing ledger entries — every
pair with version token ≤ the target is assigned the next order and gets a
success row upserted (overwriting any previous entry for its key), with
the forward script re-executed when `fake` is false even for
already-applied pairs; pairs above the target are skipped entirely and
their ledger entries stay untouched. -/
theorem c10_forceBaseline_semantics (exec : FilePair → ExecOutcome) (all : List FilePair)
    (version : String) (fake : Bool) (appliedBy : String) (now : Nat) (st : DBState)
    (hnd : (all.map keyFP).Nodup)
    (hok : fake = true ∨
      ∀ fp ∈ all.filter (fun fp => ! strLt version fp.version), exec fp = .ok) :
    (ForceBaseline exec all version fake appliedBy now st).err = none ∧
    (ForceBaseline exec all version fake appliedBy now st).applied =
      ordRows appliedBy now (maxExecutionOrder st.ledger)
        (all.filter (fun fp => ! strLt version fp.version)) ∧
    (∀ (i : Nat) (fp : FilePair),
      (all.filter (fun fp => ! strLt version fp.version))[i]? = some fp →
      findRow (ForceBaseline exec all version fake appliedBy now st).state.ledger
          (keyFP fp) =
        some (mkUpRow appliedBy now fp (maxExecutionOrder st.ledger + i + 1))) ∧
    (fake = false →
      (ForceBaseline exec all version fake appliedBy now st).state.upAttempted =
        st.upAttempted ++ all.filter (fun fp => ! strLt version fp.version)) ∧
    (fake = true →
      (ForceBaseline exec all version fake appliedBy now st).state.upAttempted =
        st.upAttempted) ∧
    (∀ fp ∈ all, strLt version fp.version = true →
      findRow (ForceBaseline exec all version fake appliedBy now st).state.ledger
          (keyFP fp) = findRow st.ledger (keyFP fp)) := by
  have hchar := forceBaselineGo_char exec appliedBy now version fake all
    (maxExecutionOrder st.ledger) [] { st with maxReads := st.maxReads + 1 } hok
  have hres : ForceBaseline exec all version fake appliedBy now st =
      { applied := ordRows appliedBy now (maxExecutionOrder st.ledger)
          (all.filter (fun fp => ! strLt version fp.version)),
        err := none,
        state := { st with
          maxReads := st.maxReads + 1,
          upAttempted := st.upAttempted ++
            (if fake then [] else all.filter (fun fp => ! strLt version fp.version)),
          upCommitted := st.upCommitted ++
            (if fake then [] else all.filter (fun fp => ! strLt version fp.version)),
          ledger := upsertAll st.ledger (ordRows appliedBy now
            (maxExecutionOrder st.ledger)
            (all.filter (fun fp => ! strLt version fp.version))) } } := by
    unfold ForceBaseline
    rw [hchar]
    simp
  have hkeysub : ((all.filter (fun fp => ! strLt version fp.version)).map keyFP).Sublist
      (all.map keyFP) := List.Sublist.map keyFP (List.filter_sublist all)
  have hndk : ((all.filter (fun fp => ! strLt version fp.version)).map keyFP).Nodup :=
    hkeysub.nodup hnd
  have hndrows : ((ordRows appliedBy now (maxExecutionOrder st.ledger)
      (all.filter (fun fp => ! strLt version fp.version))).map keyRow).Nodup := by
    rw [ordRows_map_key]
    exact hndk
  refine ⟨by rw [hres], by rw [hres], ?_, ?_, ?_, ?_⟩
  · intro i fp hget
    rw [hres]
    have hrow := ordRows_getElemOpt appliedBy now
      (all.filter (fun fp => ! strLt version fp.version)) (maxExecutionOrder st.ledger)
      i fp hget
    have hmem : mkUpRow appliedBy now fp (maxExecutionOrder st.ledger + i + 1) ∈
        ordRows appliedBy now (maxExecutionOrder st.ledger)
          (all.filter (fun fp => ! strLt version fp.version)) := by
      exact List.getElem?_mem hrow
    have := findRow_upsertAll_self _ st.ledger _ hndrows hmem
    rw [keyRow_mkUpRow] at this
    exact this
  · intro hfake
    rw [hres]
    simp [hfake]
  · intro hfake
    rw [hres]
    simp [hfake]
  · intro fp hfp hskip
    rw [hres]
    refine findRow_upsertAll_other _ st.ledger (fun r hr => ?_)
    have hkey : keyRow r ∈ (all.filter (fun fp => ! strLt version fp.version)).map keyFP := by
      rw [← ordRows_map_key appliedBy now _ (maxExecutionOrder st.ledger)]
      exact List.mem_map_of_mem keyRow hr
    rcases List.mem_map.mp hkey with ⟨q, hq, hqk⟩
    have hqmem := List.mem_of_mem_filter hq
    have hqpred := (List.mem_filter.mp hq).2
    intro hc
    have : q = fp := List.inj_on_of_nodup_map hnd hqmem hfp (hqk.trans hc)
    subst this
    rw [hskip] at hqpred
    simp at hqpred

/-- Pre-existing successful ledger entry for `wpA` with a stale checksum
and order 7, to be overwritten by the baseline. -/
def wRowAOld : Row :=
  { version := wpA.version, name := wpA.name, checksum := "zz", appliedAt := 1,
    appliedBy := "y", durationMS := 9, status := "success", executionOrder := 7 }

/-- Witness for C10: baselining up to `wpA`'s version re-executes `wpA`
(despite its existing entry), overwrites its row with order 8
(max order 7 + 1), and leaves the above-version `wpB` untouched. -/
theorem c10_witness :
    (ForceBaseline (fun _ => .ok) [wpA, wpB] "20250101000000" false "me" 4
      { wSt0 with ledger := [wRowAOld] }).err = none ∧
    findRow (ForceBaseline (fun _ => .ok) [wpA, wpB] "20250101000000" false "me" 4
        { wSt0 with ledger := [wRowAOld] }).state.ledger (keyFP wpA) =
      some (mkUpRow "me" 4 wpA (maxExecutionOrder [wRowAOld] + 0 + 1)) ∧
    (ForceBaseline (fun _ => .ok) [wpA, wpB] "20250101000000" false "me" 4
        { wSt0 with ledger := [wRowAOld] }).state.upAttempted =
      wSt0.upAttempted ++ [wpA, wpB].filter
        (fun fp => ! strLt "20250101000000" fp.version) ∧
    findRow (ForceBaseline (fun _ => .ok) [wpA, wpB] "20250101000000" false "me" 4
        { wSt0 with ledger := [wRowAOld] }).state.ledger (keyFP wpB) =
      findRow [wRowAOld] (keyFP wpB) :=
  ⟨(c10_forceBaseline_semantics (fun _ => .ok) [wpA, wpB] "20250101000000" false "me" 4
      { wSt0 with ledger := [wRowAOld] } (by decide) (Or.inr (by decide))).1,
   (c10_forceBaseline_semantics (fun _ => .ok) [wpA, wpB] "20250101000000" false "me" 4
      { wSt0 with ledger := [wRowAOld] } (by decide) (Or.inr (by decide))).2.2.1 0 wpA
      (by decide),
   (c10_forceBaseline_semantics (fun _ => .ok) [wpA, wpB] "20250101000000" false "me" 4
      { wSt0 with ledger := [wRowAOld] } (by decide) (Or.inr (by decide))).2.2.2.1 rfl,
   (c10_forceBaseline_semantics (fun _ => .ok) [wpA, wpB] "20250101000000" false "me" 4
      { wSt0 with ledger := [wRowAOld] } (by decide)
      (Or.inr (by decide))).2.2.2.2.2 wpB (by decide) (by decide)⟩

/-! ### Scanner infrastructure for claims C7 and C8 -/
/-! ### Scanner infrastructure for claims C7 and C8 -/

theorem lookupA_cons_pos {k : String} {kp : String × Pair} (t : List (String × Pair))
    (h : kp.1 = k) : lookupA (kp :: t) k = some kp.2 := by
  unfold lookupA
  rw [List.find?_cons_of_pos (p := fun kp : String × Pair => kp.1 == k) _ (by simp [h])]
  rfl

theorem lookupA_cons_neg {k : String} {kp : String × Pair} (t : List (String × Pair))
    (h : kp.1 ≠ k) : lookupA (kp :: t) k = lookupA t k := by
  unfold lookupA
  rw [List.find?_cons_of_neg (p := fun kp : String × Pair => kp.1 == k) _ (by simp [h])]

theorem lookupA_insertA_self : ∀ (out : List (String × Pair)) (k : String) (p : Pair),
    lookupA (insertA out k p) k = some p := by
  intro out
  induction out with
  | nil => intro k p; rw [insertA, lookupA_cons_pos [] rfl]
  | cons kp t ih =>
    intro k p
    by_cases hk : kp.1 = k
    · rw [insertA, if_pos hk, lookupA_cons_pos t rfl]
    · rw [insertA, if_neg hk, lookupA_cons_neg _ hk]
      exact ih k p

theorem lookupA_insertA_other : ∀ (out : List (String × Pair)) (k k' : String) (p : Pair),
    k' ≠ k → lookupA (insertA out k p) k' = lookupA out k' := by
  intro out
  induction out with
  | nil =>
    intro k k' p h
    rw [insertA, lookupA_cons_neg [] (Ne.symm h)]
  | cons kp t ih =>
    intro k k' p h
    by_cases hk : kp.1 = k
    · rw [insertA, if_pos hk]
      by_cases hk' : kp.1 = k'
      · exact absurd (hk'.symm.trans hk) h
      · rw [lookupA_cons_neg t (show (k, p).1 ≠ k' from fun hc => h hc.symm),
          lookupA_cons_neg t hk']
    · rw [insertA, if_neg hk]
      by_cases hk' : kp.1 = k'
      · rw [lookupA_cons_pos _ hk', lookupA_cons_pos t hk']
      · rw [lookupA_cons_neg _ hk', lookupA_cons_neg t hk']
        exact ih k k' p h

theorem insertA_of_lookupA_none : ∀ (out : List (String × Pair)) (k : String) (p : Pair),
    lookupA out k = none → insertA out k p = out ++ [(k, p)] := by
  intro out
  induction out with
  | nil => intro k p _; rfl
  | cons kp t ih =>
    intro k p h
    by_cases hk : kp.1 = k
    · rw [lookupA_cons_pos t hk] at h
      cases h
    · rw [lookupA_cons_neg t hk] at h
      rw [insertA, if_neg hk, List.cons_append, ih k p h]

theorem map_fst_insertA_of_some : ∀ (out : List (String × Pair)) (k : String)
    (p q : Pair), lookupA out k = some q →
    (insertA out k p).map Prod.fst = out.map Prod.fst := by
  intro out
  induction out with
  | nil => intro k p q h; cases h
  | cons kp t ih =>
    intro k p q h
    by_cases hk : kp.1 = k
    · rw [insertA, if_pos hk]
      simp [hk]
    · rw [lookupA_cons_neg t hk] at h
      rw [insertA, if_neg hk]
      simp only [List.map_cons]
      rw [ih k p q h]

theorem mem_insertA_elim : ∀ (out : List (String × Pair)) (k : String) (p : Pair)
    (x : String × Pair), x ∈ insertA out k p → x = (k, p) ∨ x ∈ out := by
  intro out
  induction out with
  | nil =>
    intro k p x h
    rw [insertA] at h
    exact Or.inl (List.mem_singleton.mp h)
  | cons kp t ih =>
    intro k p x h
    by_cases hk : kp.1 = k
    · rw [insertA, if_pos hk] at h
      rcases List.mem_cons.mp h with h1 | h2
      · exact Or.inl h1
      · exact Or.inr (List.mem_cons_of_mem kp h2)
    · rw [insertA, if_neg hk] at h
      rcases List.mem_cons.mp h with h1 | h2
      · exact Or.inr (h1 ▸ List.mem_cons_self kp t)
      · rcases ih k p x h2 with h3 | h4
        · exact Or.inl h3
        · exact Or.inr (List.mem_cons_of_mem kp h4)

theorem mem_insertA_of_ne : ∀ (out : List (String × Pair)) (k : String) (p : Pair)
    (x : String × Pair), x ∈ out → x.1 ≠ k → x ∈ insertA out k p := by
  intro out
  induction out with
  | nil => intro k p x h; cases h
  | cons kp t ih =>
    intro k p x h hne
    by_cases hk : kp.1 = k
    · rw [insertA, if_pos hk]
      rcases List.mem_cons.mp h with h1 | h2
      · exact absurd (h1 ▸ hk) hne
      · exact List.mem_cons_of_mem _ h2
    · rw [insertA, if_neg hk]
      rcases List.mem_cons.mp h with h1 | h2
      · exact h1 ▸ List.mem_cons_self kp _
      · exact List.mem_cons_of_mem _ (ih k p x h2 hne)

theorem insertA_self_mem (out : List (String × Pair)) (k : String) (p : Pair) :
    (k, p) ∈ insertA out k p := by
  induction out with
  | nil => exact List.mem_singleton.mpr rfl
  | cons kp t ih =>
    by_cases hk : kp.1 = k
    · rw [insertA, if_pos hk]
      exact List.mem_cons_self _ _
    · rw [insertA, if_neg hk]
      exact List.mem_cons_of_mem _ ih

theorem mem_of_lookupA {out : List (String × Pair)} {k : String} {p : Pair}
    (h : lookupA out k = some p) : (k, p) ∈ out := by
  rw [lookupA] at h
  cases hf : out.find? (fun kp => kp.1 == k) with
  | none => rw [hf] at h; cases h
  | some kp =>
    rw [hf] at h
    have hk : kp.1 = k := by simpa using List.find?_some hf
    have hmem := List.mem_of_find?_eq_some hf
    have hp : kp.2 = p := by
      have : some kp.2 = some p := h
      exact Option.some.inj this
    rw [← hk, ← hp]
    exact hmem

theorem lookupA_none_not_mem {out : List (String × Pair)} {k : String}
    (h : lookupA out k = none) : ∀ p, (k, p) ∉ out := by
  intro p hp
  rw [lookupA] at h
  cases hf : out.find? (fun kp => kp.1 == k) with
  | some kp => rw [hf] at h; cases h
  | none =>
    rw [List.find?_eq_none] at hf
    exact hf (k, p) hp (by simp)

/-- Triples extracted from a directory listing: the parses of its
non-directory entries, in listing order. -/
def parsedOf (entries : List DirEntry) : List (String × String × Bool) :=
  entries.filterMap (fun e => if e.isDir then none else parseMigName e.name)

/-- The unique file name that parses to a given (version, name, side). -/
def fnameOf (v n : String) (b : Bool) : String :=
  String.mk (v.data ++ '_' :: (n.data ++ (if b then ".up.sql".data else ".down.sql".data)))

theorem isDigitChar_ne_colon {c : Char} (h : isDigitChar c = true) : c ≠ ':' := by
  intro hc
  subst hc
  simp [isDigitChar, Char.isDigit] at h

theorem takeWhile_all_append {p : Char → Bool} :
    ∀ (l : List Char) (c0 : Char) (r : List Char),
      (∀ c ∈ l, p c = true) → p c0 = false →
      (l ++ c0 :: r).takeWhile p = l ∧ (l ++ c0 :: r).dropWhile p = c0 :: r := by
  intro l
  induction l with
  | nil =>
    intro c0 r _ h0
    simp [List.takeWhile, List.dropWhile, h0]
  | cons c t ih =>
    intro c0 r hall h0
    have hc := hall c (List.mem_cons_self c t)
    obtain ⟨h1, h2⟩ := ih c0 r (fun x hx => hall x (List.mem_cons_of_mem c hx)) h0
    constructor
    · rw [List.cons_append, List.takeWhile_cons, hc]
      simp [h1]
    · rw [List.cons_append, List.dropWhile_cons, hc]
      simpa using h2

/-- What a successful parse of a migration file name guarantees: a
non-empty digit version, a non-empty name over the name alphabet, and the
exact reconstruction of the file name from those parts. -/
theorem parseMigName_spec {s : String} {v n : String} {b : Bool}
    (h : parseMigName s = some (v, n, b)) :
    v.data ≠ [] ∧ (∀ c ∈ v.data, isDigitChar c = true) ∧
    n.data ≠ [] ∧ (∀ c ∈ n.data, isNameChar c = true) ∧
    s = fnameOf v n b := by
  unfold parseMigName at h
  by_cases hv : (s.data.takeWhile isDigitChar).isEmpty = true
  · rw [if_pos hv] at h; cases h
  · rw [if_neg hv] at h
    cases hdrop : s.data.dropWhile isDigitChar with
    | nil => rw [hdrop] at h; cases h
    | cons c rest2 =>
      rw [hdrop] at h
      dsimp only at h
      by_cases hc : c = '_'
      · rw [if_pos hc] at h
        subst hc
        by_cases hn : (rest2.takeWhile isNameChar).isEmpty = true
        · rw [if_pos hn] at h; cases h
        · rw [if_neg hn] at h
          have hparts : ∀ (tl : List Char),
              rest2.dropWhile isNameChar = tl →
              v = String.mk (s.data.takeWhile isDigitChar) →
              n = String.mk (rest2.takeWhile isNameChar) →
              (fnameOf v n b).data =
                s.data.takeWhile isDigitChar ++
                  '_' :: (rest2.takeWhile isNameChar ++
                    (if b then ".up.sql".data else ".down.sql".data)) := by
            intro tl _ hveq hneq
            rw [hveq, hneq]
            rfl
          by_cases hup : rest2.dropWhile isNameChar = ".up.sql".data
          · rw [if_pos hup] at h
            simp only [Option.some.injEq, Prod.mk.injEq] at h
            obtain ⟨hveq, hneq, hbeq⟩ := h
            refine ⟨?_, ?_, ?_, ?_, ?_⟩
            · rw [← hveq]
              intro hnil
              exact hv (by simp [show s.data.takeWhile isDigitChar = [] from hnil])
            · intro cc hcc
              rw [← hveq] at hcc
              exact List.mem_takeWhile_imp hcc
            · rw [← hneq]
              intro hnil
              exact hn (by simp [show rest2.takeWhile isNameChar = [] from hnil])
            · intro cc hcc
              rw [← hneq] at hcc
              exact List.mem_takeWhile_imp hcc
            · apply String.ext
              rw [hparts ".up.sql".data hup hveq.symm hneq.symm, ← hbeq, ← hup]
              rw [if_pos rfl, List.takeWhile_append_dropWhile]
              conv_lhs => rw [← List.takeWhile_append_dropWhile isDigitChar s.data, hdrop]
          · rw [if_neg hup] at h
            by_cases hdn : rest2.dropWhile isNameChar = ".down.sql".data
            · rw [if_pos hdn] at h
              simp only [Option.some.injEq, Prod.mk.injEq] at h
              obtain ⟨hveq, hneq, hbeq⟩ := h
              refine ⟨?_, ?_, ?_, ?_, ?_⟩
              · rw [← hveq]
                intro hnil
                exact hv (by simp [show s.data.takeWhile isDigitChar = [] from hnil])
              · intro cc hcc
                rw [← hveq] at hcc
                exact List.mem_takeWhile_imp hcc
              · rw [← hneq]
                intro hnil
                exact hn (by simp [show rest2.takeWhile isNameChar = [] from hnil])
              · intro cc hcc
                rw [← hneq] at hcc
                exact List.mem_takeWhile_imp hcc
              · apply String.ext
                rw [hparts ".down.sql".data hdn hveq.symm hneq.symm, ← hbeq, ← hdn]
                rw [if_neg (by simp), List.takeWhile_append_dropWhile]
                conv_lhs => rw [← List.takeWhile_append_dropWhile isDigitChar s.data, hdrop]
            · rw [if_neg hdn] at h; cases h
      · rw [if_neg hc] at h; cases h

/-- The scanning loop re-expressed on the parsed triples: since a parsed
file name is reconstructible from its (version, name, side), `scanGo` is
equal to this loop over `parsedOf entries` (proved below). -/
def scanTriples (full : String → String) :
    List (String × String × Bool) → List (String × Pair) →
    Except String (List (String × Pair))
  | [], out => .ok out
  | (v, n, isUp) :: rest, out =>
    let k := keyStr v n
    let p := (lookupA out k).getD { version := v, name := n, upPath := "", downPath := "" }
    if isUp then
      if p.upPath ≠ "" then .error ("duplicate up file for version " ++ v)
      else scanTriples full rest (insertA out k { p with upPath := full (fnameOf v n true) })
    else
      if p.downPath ≠ "" then .error ("duplicate down file for version " ++ v)
      else scanTriples full rest (insertA out k { p with downPath := full (fnameOf v n false) })

theorem scanGo_eq_triples (full : String → String) :
    ∀ (entries : List DirEntry) (out : List (String × Pair)),
      scanGo full entries out = scanTriples full (parsedOf entries) out := by
  intro entries
  induction entries with
  | nil => intro out; rfl
  | cons e rest ih =>
    intro out
    by_cases hd : e.isDir = true
    · rw [scanGo, if_pos hd]
      rw [parsedOf, List.filterMap_cons, if_pos hd]
      exact ih out
    · rw [scanGo, if_neg hd]
      have hpd : parsedOf (e :: rest) =
          (match parseMigName e.name with
           | none => parsedOf rest
           | some t => t :: parsedOf rest) := by
        rw [parsedOf, List.filterMap_cons, if_neg hd]
        cases parseMigName e.name <;> rfl
      cases hp : parseMigName e.name with
      | none =>
        rw [hp] at hpd
        rw [hpd]
        exact ih out
      | some t =>
        obtain ⟨v, n, b⟩ := t
        rw [hp] at hpd
        rw [hpd]
        have hname : e.name = fnameOf v n b := (parseMigName_spec hp).2.2.2.2
        rw [scanTriples]
        dsimp only
        cases b with
        | true =>
          rw [hname]
          rw [if_pos (rfl : (true : Bool) = true), if_pos (rfl : (true : Bool) = true)]
          by_cases hdup : ((lookupA out (keyStr v n)).getD
              { version := v, name := n, upPath := "", downPath := "" }).upPath ≠ ""
          · rw [if_pos hdup, if_pos hdup]
          · rw [if_neg hdup, if_neg hdup]
            exact ih _
        | false =>
          rw [hname]
          rw [if_neg (by simp : ¬ (false : Bool) = true),
            if_neg (by simp : ¬ (false : Bool) = true)]
          by_cases hdup : ((lookupA out (keyStr v n)).getD
              { version := v, name := n, upPath := "", downPath := "" }).downPath ≠ ""
          · rw [if_pos hdup, if_pos hdup]
          · rw [if_neg hdup, if_neg hdup]
            exact ih _

/-- Version strings produced by the filename pattern: digit characters only. -/
def verWF (v : String) : Prop := ∀ c ∈ v.data, isDigitChar c = true

theorem parsedOf_wf (entries : List DirEntry) :
    ∀ t ∈ parsedOf entries, verWF t.1 := by
  intro t ht
  rw [parsedOf, List.mem_filterMap] at ht
  obtain ⟨e, _, he⟩ := ht
  by_cases hd : e.isDir = true
  · rw [if_pos hd] at he; cases he
  · rw [if_neg hd] at he
    obtain ⟨v, n, b⟩ := t
    exact (parseMigName_spec he).2.1

theorem append_colon_inj : ∀ (l1 : List Char) (r1 : List Char) (l2 : List Char)
    (r2 : List Char), (∀ c ∈ l1, c ≠ ':') → (∀ c ∈ l2, c ≠ ':') →
    l1 ++ ':' :: r1 = l2 ++ ':' :: r2 → l1 = l2 ∧ r1 = r2 := by
  intro l1
  induction l1 with
  | nil =>
    intro r1 l2 r2 _ h2 heq
    cases l2 with
    | nil => simpa using heq
    | cons c2 t2 =>
      rw [List.nil_append, List.cons_append] at heq
      have hc := (List.cons.injEq _ _ _ _ ▸ heq).1
      exact absurd hc.symm (h2 c2 (List.mem_cons_self c2 t2))
  | cons c1 t1 ih =>
    intro r1 l2 r2 h1 h2 heq
    cases l2 with
    | nil =>
      rw [List.nil_append, List.cons_append] at heq
      have hc := (List.cons.injEq _ _ _ _ ▸ heq).1
      exact absurd hc (h1 c1 (List.mem_cons_self c1 t1))
    | cons c2 t2 =>
      rw [List.cons_append, List.cons_append] at heq
      have hc := List.cons.injEq _ _ _ _ ▸ heq
      obtain ⟨hh, htl⟩ := hc
      obtain ⟨ht, hr⟩ := ih r1 t2 r2 (fun c hcm => h1 c (List.mem_cons_of_mem c1 hcm))
        (fun c hcm => h2 c (List.mem_cons_of_mem c2 hcm)) htl
      exact ⟨by rw [hh, ht], hr⟩

theorem keyStr_data (v n : String) : (keyStr v n).data = v.data ++ ':' :: n.data := by
  show ((v ++ ":") ++ n).data = _
  rw [String.data_append, String.data_append, List.append_assoc]
  rfl

theorem keyStr_inj {v1 n1 v2 n2 : String} (h1 : verWF v1) (h2 : verWF v2)
    (h : keyStr v1 n1 = keyStr v2 n2) : v1 = v2 ∧ n1 = n2 := by
  have hd : v1.data ++ ':' :: n1.data = v2.data ++ ':' :: n2.data := by
    rw [← keyStr_data, ← keyStr_data, h]
  obtain ⟨hv, hn⟩ := append_colon_inj v1.data n1.data v2.data n2.data
    (fun c hc => isDigitChar_ne_colon (h1 c hc))
    (fun c hc => isDigitChar_ne_colon (h2 c hc)) hd
  exact ⟨String.ext hv, String.ext hn⟩

/-- Invariant of the scanning loop relating the map built so far (`out`)
to the triples already processed (`P`): keys are the `(version,name)`
keys, a half-path is recorded iff the corresponding side was seen, every
seen triple has its entry, keys are unique, and every entry has at least
one side recorded. -/
structure ScanInv (P : List (String × String × Bool))
    (out : List (String × Pair)) : Prop where
  key_eq : ∀ kp ∈ out, kp.1 = keyStr kp.2.version kp.2.name
  ver_wf : ∀ kp ∈ out, verWF kp.2.version
  up_iff : ∀ kp ∈ out, (kp.2.upPath ≠ "" ↔ (kp.2.version, kp.2.name, true) ∈ P)
  down_iff : ∀ kp ∈ out, (kp.2.downPath ≠ "" ↔ (kp.2.version, kp.2.name, false) ∈ P)
  covers : ∀ t ∈ P, ∃ p, (keyStr t.1 t.2.1, p) ∈ out ∧ p.version = t.1 ∧ p.name = t.2.1
  keys_nodup : (out.map Prod.fst).Nodup
  some_path : ∀ kp ∈ out, kp.2.upPath ≠ "" ∨ kp.2.downPath ≠ ""

theorem mem_insertA_strong : ∀ (out : List (String × Pair)) (k : String) (q : Pair)
    (x : String × Pair), (out.map Prod.fst).Nodup → x ∈ insertA out k q →
    x = (k, q) ∨ (x ∈ out ∧ x.1 ≠ k) := by
  intro out
  induction out with
  | nil =>
    intro k q x _ h
    rw [insertA] at h
    exact Or.inl (List.mem_singleton.mp h)
  | cons kp t ih =>
    intro k q x hnd h
    simp only [List.map_cons, List.nodup_cons] at hnd
    by_cases hk : kp.1 = k
    · rw [insertA, if_pos hk] at h
      rcases List.mem_cons.mp h with h1 | h2
      · exact Or.inl h1
      · refine Or.inr ⟨List.mem_cons_of_mem kp h2, fun hc => ?_⟩
        exact hnd.1 (hk ▸ hc ▸ List.mem_map_of_mem Prod.fst h2)
    · rw [insertA, if_neg hk] at h
      rcases List.mem_cons.mp h with h1 | h2
      · exact Or.inr ⟨h1 ▸ List.mem_cons_self kp t, h1 ▸ hk⟩
      · rcases ih k q x hnd.2 h2 with h3 | h4
        · exact Or.inl h3
        · exact Or.inr ⟨List.mem_cons_of_mem kp h4.1, h4.2⟩

/-- The existing entry's up half is recorded iff the up side of this
(version, name) was already processed. -/
theorem scanStep_up_iff {P : List (String × String × Bool)}
    {out : List (String × Pair)} (inv : ScanInv P out) {v n : String} (hv : verWF v) :
    (((lookupA out (keyStr v n)).getD
      { version := v, name := n, upPath := "", downPath := "" }).upPath ≠ "" ↔
      (v, n, true) ∈ P) := by
  cases hlook : lookupA out (keyStr v n) with
  | none =>
    simp only [Option.getD_none]
    constructor
    · intro hc; exact absurd rfl hc
    · intro hc
      obtain ⟨p, hp, _, _⟩ := inv.covers (v, n, true) hc
      exact absurd hp (lookupA_none_not_mem hlook p)
  | some p =>
    have hmem := mem_of_lookupA hlook
    have hkey := inv.key_eq (keyStr v n, p) hmem
    obtain ⟨hpv, hpn⟩ := keyStr_inj hv (inv.ver_wf (keyStr v n, p) hmem) hkey
    have := inv.up_iff (keyStr v n, p) hmem
    rw [← hpv, ← hpn] at this
    exact this

/-- The down-side analogue of `scanStep_up_iff`. -/
theorem scanStep_down_iff {P : List (String × String × Bool)}
    {out : List (String × Pair)} (inv : ScanInv P out) {v n : String} (hv : verWF v) :
    (((lookupA out (keyStr v n)).getD
      { version := v, name := n, upPath := "", downPath := "" }).downPath ≠ "" ↔
      (v, n, false) ∈ P) := by
  cases hlook : lookupA out (keyStr v n) with
  | none =>
    simp only [Option.getD_none]
    constructor
    · intro hc; exact absurd rfl hc
    · intro hc
      obtain ⟨p, hp, _, _⟩ := inv.covers (v, n, false) hc
      exact absurd hp (lookupA_none_not_mem hlook p)
  | some p =>
    have hmem := mem_of_lookupA hlook
    have hkey := inv.key_eq (keyStr v n, p) hmem
    obtain ⟨hpv, hpn⟩ := keyStr_inj hv (inv.ver_wf (keyStr v n, p) hmem) hkey
    have := inv.down_iff (keyStr v n, p) hmem
    rw [← hpv, ← hpn] at this
    exact this

/-- Recording the up half of a fresh (version, name, up) triple preserves
the scanning invariant. -/
theorem scanInv_insert_up {full : String → String} (hf : ∀ s, full s ≠ "")
    {P : List (String × String × Bool)} {out : List (String × Pair)}
    (inv : ScanInv P out) (hPwf : ∀ t ∈ P, verWF t.1) (hP : P.Nodup)
    {v n : String} (hv : verWF v) (hnotin : (v, n, true) ∉ P) :
    ScanInv (P ++ [(v, n, true)])
      (insertA out (keyStr v n)
        { (lookupA out (keyStr v n)).getD
            { version := v, name := n, upPath := "", downPath := "" } with
          upPath := full (fnameOf v n true) }) ∧
    (P ++ [(v, n, true)]).Nodup ∧ (∀ t ∈ P ++ [(v, n, true)], verWF t.1) := by
  have hpn2 : (P ++ [(v, n, true)]).Nodup := by
    rw [List.nodup_append]
    exact ⟨hP, List.nodup_singleton _, fun a ha hb => by
      rw [List.mem_singleton] at hb
      exact hnotin (hb ▸ ha)⟩
  have hpwf2 : ∀ t ∈ P ++ [(v, n, true)], verWF t.1 := by
    intro t ht
    rcases List.mem_append.mp ht with h1 | h2
    · exact hPwf t h1
    · rw [List.mem_singleton] at h2
      subst h2
      exact hv
  cases hlook : lookupA out (keyStr v n) with
  | none =>
    simp only [Option.getD_none]
    rw [insertA_of_lookupA_none out (keyStr v n) _ hlook]
    have hnomem := lookupA_none_not_mem hlook
    have hknotin : keyStr v n ∉ out.map Prod.fst := by
      intro hc
      rcases List.mem_map.mp hc with ⟨x, hx, hfst⟩
      have h2 : (x.1, x.2) ∈ out := hx
      rw [hfst] at h2
      exact hnomem x.2 h2
    refine ⟨⟨?_, ?_, ?_, ?_, ?_, ?_, ?_⟩, hpn2, hpwf2⟩
    · intro kp hkp
      rcases List.mem_append.mp hkp with h1 | h2
      · exact inv.key_eq kp h1
      · rw [List.mem_singleton] at h2
        subst h2
        rfl
    · intro kp hkp
      rcases List.mem_append.mp hkp with h1 | h2
      · exact inv.ver_wf kp h1
      · rw [List.mem_singleton] at h2
        subst h2
        exact hv
    · intro kp hkp
      rcases List.mem_append.mp hkp with h1 | h2
      · rw [List.mem_append, List.mem_singleton]
        constructor
        · intro hup
          exact Or.inl ((inv.up_iff kp h1).mp hup)
        · rintro (hin | heq)
          · exact (inv.up_iff kp h1).mpr hin
          · exfalso
            simp only [Prod.mk.injEq] at heq
            have hkey := inv.key_eq kp h1
            rw [heq.1, heq.2.1] at hkey
            have h2 : (kp.1, kp.2) ∈ out := h1
            rw [hkey] at h2
            exact hnomem kp.2 h2
      · rw [List.mem_singleton] at h2
        subst h2
        constructor
        · intro _
          rw [List.mem_append, List.mem_singleton]
          exact Or.inr rfl
        · intro _
          exact hf (fnameOf v n true)
    · intro kp hkp
      rcases List.mem_append.mp hkp with h1 | h2
      · rw [List.mem_append, List.mem_singleton]
        constructor
        · intro hdw
          exact Or.inl ((inv.down_iff kp h1).mp hdw)
        · rintro (hin | heq)
          · exact (inv.down_iff kp h1).mpr hin
          · exfalso
            simp at heq
      · rw [List.mem_singleton] at h2
        subst h2
        constructor
        · intro hc
          exact absurd rfl hc
        · intro hc
          rw [List.mem_append, List.mem_singleton] at hc
          rcases hc with hin | heq
          · obtain ⟨p0, hp0, _, _⟩ := inv.covers (v, n, false) hin
            exact absurd hp0 (hnomem p0)
          · simp at heq
    · intro t0 ht0
      rcases List.mem_append.mp ht0 with h1 | h2
      · obtain ⟨p0, hp0, hv0, hn0⟩ := inv.covers t0 h1
        exact ⟨p0, List.mem_append_left _ hp0, hv0, hn0⟩
      · rw [List.mem_singleton] at h2
        subst h2
        exact ⟨_, List.mem_append_right _ (List.mem_singleton.mpr rfl), rfl, rfl⟩
    · rw [List.map_append, List.nodup_append]
      refine ⟨inv.keys_nodup, List.nodup_singleton _, fun a ha hb => ?_⟩
      rw [List.map_singleton, List.mem_singleton] at hb
      have hb2 : a = keyStr v n := hb
      exact hknotin (hb2 ▸ ha)
    · intro kp hkp
      rcases List.mem_append.mp hkp with h1 | h2
      · exact inv.some_path kp h1
      · rw [List.mem_singleton] at h2
        subst h2
        exact Or.inl (hf (fnameOf v n true))
  | some p =>
    have hmem := mem_of_lookupA hlook
    obtain ⟨hpv, hpn⟩ := keyStr_inj hv (inv.ver_wf (keyStr v n, p) hmem)
      (inv.key_eq (keyStr v n, p) hmem)
    have hmapfst := map_fst_insertA_of_some out (keyStr v n)
      { p with upPath := full (fnameOf v n true) } p hlook
    refine ⟨⟨?_, ?_, ?_, ?_, ?_, ?_, ?_⟩, hpn2, hpwf2⟩
    · intro kp hkp
      rcases mem_insertA_strong out _ _ kp inv.keys_nodup hkp with h1 | h2
      · subst h1
        show keyStr v n = keyStr p.version p.name
        rw [← hpv, ← hpn]
      · exact inv.key_eq kp h2.1
    · intro kp hkp
      rcases mem_insertA_strong out _ _ kp inv.keys_nodup hkp with h1 | h2
      · subst h1
        exact hpv ▸ hv
      · exact inv.ver_wf kp h2.1
    · intro kp hkp
      rcases mem_insertA_strong out _ _ kp inv.keys_nodup hkp with h1 | h2
      · subst h1
        constructor
        · intro _
          rw [List.mem_append, List.mem_singleton]
          refine Or.inr ?_
          show (p.version, p.name, true) = (v, n, true)
          rw [← hpv, ← hpn]
        · intro _
          exact hf (fnameOf v n true)
      · rw [List.mem_append, List.mem_singleton]
        constructor
        · intro hup
          exact Or.inl ((inv.up_iff kp h2.1).mp hup)
        · rintro (hin | heq)
          · exact (inv.up_iff kp h2.1).mpr hin
          · exfalso
            simp only [Prod.mk.injEq] at heq
            have hkey := inv.key_eq kp h2.1
            rw [heq.1, heq.2.1] at hkey
            exact h2.2 hkey
    · intro kp hkp
      rcases mem_insertA_strong out _ _ kp inv.keys_nodup hkp with h1 | h2
      · subst h1
        rw [List.mem_append, List.mem_singleton]
        have hpd := inv.down_iff (keyStr v n, p) hmem
        constructor
        · intro hdw
          exact Or.inl (hpd.mp hdw)
        · rintro (hin | heq)
          · exact hpd.mpr hin
          · exfalso
            simp at heq
      · rw [List.mem_append, List.mem_singleton]
        constructor
        · intro hdw
          exact Or.inl ((inv.down_iff kp h2.1).mp hdw)
        · rintro (hin | heq)
          · exact (inv.down_iff kp h2.1).mpr hin
          · exfalso
            simp at heq
    · intro t0 ht0
      rcases List.mem_append.mp ht0 with h1 | h2
      · obtain ⟨p0, hp0, hv0, hn0⟩ := inv.covers t0 h1
        by_cases hk0 : keyStr t0.1 t0.2.1 = keyStr v n
        · obtain ⟨ht1, ht2⟩ := keyStr_inj (hPwf t0 h1) hv hk0
          refine ⟨{ p with upPath := full (fnameOf v n true) }, ?_, ?_, ?_⟩
          · rw [hk0]
            exact insertA_self_mem out _ _
          · show p.version = t0.1
            rw [← hpv, ht1]
          · show p.name = t0.2.1
            rw [← hpn, ht2]
        · exact ⟨p0, mem_insertA_of_ne out _ _ _ hp0 hk0, hv0, hn0⟩
      · rw [List.mem_singleton] at h2
        subst h2
        refine ⟨{ p with upPath := full (fnameOf v n true) },
          insertA_self_mem out _ _, ?_, ?_⟩
        · exact hpv.symm
        · exact hpn.symm
    · exact hmapfst.symm ▸ inv.keys_nodup
    · intro kp hkp
      rcases mem_insertA_strong out _ _ kp inv.keys_nodup hkp with h1 | h2
      · subst h1
        exact Or.inl (hf (fnameOf v n true))
      · exact inv.some_path kp h2.1

/-- Recording the down half of a fresh (version, name, down) triple
preserves the scanning invariant. -/
theorem scanInv_insert_down {full : String → String} (hf : ∀ s, full s ≠ "")
    {P : List (String × String × Bool)} {out : List (String × Pair)}
    (inv : ScanInv P out) (hPwf : ∀ t ∈ P, verWF t.1) (hP : P.Nodup)
    {v n : String} (hv : verWF v) (hnotin : (v, n, false) ∉ P) :
    ScanInv (P ++ [(v, n, false)])
      (insertA out (keyStr v n)
        { (lookupA out (keyStr v n)).getD
            { version := v, name := n, upPath := "", downPath := "" } with
          downPath := full (fnameOf v n false) }) ∧
    (P ++ [(v, n, false)]).Nodup ∧ (∀ t ∈ P ++ [(v, n, false)], verWF t.1) := by
  have hpn2 : (P ++ [(v, n, false)]).Nodup := by
    rw [List.nodup_append]
    exact ⟨hP, List.nodup_singleton _, fun a ha hb => by
      rw [List.mem_singleton] at hb
      exact hnotin (hb ▸ ha)⟩
  have hpwf2 : ∀ t ∈ P ++ [(v, n, false)], verWF t.1 := by
    intro t ht
    rcases List.mem_append.mp ht with h1 | h2
    · exact hPwf t h1
    · rw [List.mem_singleton] at h2
      subst h2
      exact hv
  cases hlook : lookupA out (keyStr v n) with
  | none =>
    simp only [Option.getD_none]
    rw [insertA_of_lookupA_none out (keyStr v n) _ hlook]
    have hnomem := lookupA_none_not_mem hlook
    have hknotin : keyStr v n ∉ out.map Prod.fst := by
      intro hc
      rcases List.mem_map.mp hc with ⟨x, hx, hfst⟩
      have h2 : (x.1, x.2) ∈ out := hx
      rw [hfst] at h2
      exact hnomem x.2 h2
    refine ⟨⟨?_, ?_, ?_, ?_, ?_, ?_, ?_⟩, hpn2, hpwf2⟩
    · intro kp hkp
      rcases List.mem_append.mp hkp with h1 | h2
      · exact inv.key_eq kp h1
      · rw [List.mem_singleton] at h2
        subst h2
        rfl
    · intro kp hkp
      rcases List.mem_append.mp hkp with h1 | h2
      · exact inv.ver_wf kp h1
      · rw [List.mem_singleton] at h2
        subst h2
        exact hv
    · intro kp hkp
      rcases List.mem_append.mp hkp with h1 | h2
      · rw [List.mem_append, List.mem_singleton]
        constructor
        · intro hup
          exact Or.inl ((inv.up_iff kp h1).mp hup)
        · rintro (hin | heq)
          · exact (inv.up_iff kp h1).mpr hin
          · exfalso
            simp at heq
      · rw [List.mem_singleton] at h2
        subst h2
        constructor
        · intro hc
          exact absurd rfl hc
        · intro hc
          rw [List.mem_append, List.mem_singleton] at hc
          rcases hc with hin | heq
          · obtain ⟨p0, hp0, _, _⟩ := inv.covers (v, n, true) hin
            exact absurd hp0 (hnomem p0)
          · simp at heq
    · intro kp hkp
      rcases List.mem_append.mp hkp with h1 | h2
      · rw [List.mem_append, List.mem_singleton]
        constructor
        · intro hdw
          exact Or.inl ((inv.down_iff kp h1).mp hdw)
        · rintro (hin | heq)
          · exact (inv.down_iff kp h1).mpr hin
          · exfalso
            simp only [Prod.mk.injEq] at heq
            have hkey := inv.key_eq kp h1
            rw [heq.1, heq.2.1] at hkey
            have h2 : (kp.1, kp.2) ∈ out := h1
            rw [hkey] at h2
            exact hnomem kp.2 h2
      · rw [List.mem_singleton] at h2
        subst h2
        constructor
        · intro _
          rw [List.mem_append, List.mem_singleton]
          exact Or.inr rfl
        · intro _
          exact hf (fnameOf v n false)
    · intro t0 ht0
      rcases List.mem_append.mp ht0 with h1 | h2
      · obtain ⟨p0, hp0, hv0, hn0⟩ := inv.covers t0 h1
        exact ⟨p0, List.mem_append_left _ hp0, hv0, hn0⟩
      · rw [List.mem_singleton] at h2
        subst h2
        exact ⟨_, List.mem_append_right _ (List.mem_singleton.mpr rfl), rfl, rfl⟩
    · rw [List.map_append, List.nodup_append]
      refine ⟨inv.keys_nodup, List.nodup_singleton _, fun a ha hb => ?_⟩
      rw [List.map_singleton, List.mem_singleton] at hb
      have hb2 : a = keyStr v n := hb
      exact hknotin (hb2 ▸ ha)
    · intro kp hkp
      rcases List.mem_append.mp hkp with h1 | h2
      · exact inv.some_path kp h1
      · rw [List.mem_singleton] at h2
        subst h2
        exact Or.inr (hf (fnameOf v n false))
  | some p =>
    have hmem := mem_of_lookupA hlook
    obtain ⟨hpv, hpn⟩ := keyStr_inj hv (inv.ver_wf (keyStr v n, p) hmem)
      (inv.key_eq (keyStr v n, p) hmem)
    have hmapfst := map_fst_insertA_of_some out (keyStr v n)
      { p with downPath := full (fnameOf v n false) } p hlook
    refine ⟨⟨?_, ?_, ?_, ?_, ?_, ?_, ?_⟩, hpn2, hpwf2⟩
    · intro kp hkp
      rcases mem_insertA_strong out _ _ kp inv.keys_nodup hkp with h1 | h2
      · subst h1
        show keyStr v n = keyStr p.version p.name
        rw [← hpv, ← hpn]
      · exact inv.key_eq kp h2.1
    · intro kp hkp
      rcases mem_insertA_strong out _ _ kp inv.keys_nodup hkp with h1 | h2
      · subst h1
        exact hpv ▸ hv
      · exact inv.ver_wf kp h2.1
    · intro kp hkp
      rcases mem_insertA_strong out _ _ kp inv.keys_nodup hkp with h1 | h2
      · subst h1
        rw [List.mem_append, List.mem_singleton]
        have hpu := inv.up_iff (keyStr v n, p) hmem
        constructor
        · intro hup
          exact Or.inl (hpu.mp hup)
        · rintro (hin | heq)
          · exact hpu.mpr hin
          · exfalso
            simp at heq
      · rw [List.mem_append, List.mem_singleton]
        constructor
        · intro hup
          exact Or.inl ((inv.up_iff kp h2.1).mp hup)
        · rintro (hin | heq)
          · exact (inv.up_iff kp h2.1).mpr hin
          · exfalso
            simp at heq
    · intro kp hkp
      rcases mem_insertA_strong out _ _ kp inv.keys_nodup hkp with h1 | h2
      · subst h1
        constructor
        · intro _
          rw [List.mem_append, List.mem_singleton]
          refine Or.inr ?_
          show (p.version, p.name, false) = (v, n, false)
          rw [← hpv, ← hpn]
        · intro _
          exact hf (fnameOf v n false)
      · rw [List.mem_append, List.mem_singleton]
        constructor
        · intro hdw
          exact Or.inl ((inv.down_iff kp h2.1).mp hdw)
        · rintro (hin | heq)
          · exact (inv.down_iff kp h2.1).mpr hin
          · exfalso
            simp only [Prod.mk.injEq] at heq
            have hkey := inv.key_eq kp h2.1
            rw [heq.1, heq.2.1] at hkey
            exact h2.2 hkey
    · intro t0 ht0
      rcases List.mem_append.mp ht0 with h1 | h2
      · obtain ⟨p0, hp0, hv0, hn0⟩ := inv.covers t0 h1
        by_cases hk0 : keyStr t0.1 t0.2.1 = keyStr v n
        · obtain ⟨ht1, ht2⟩ := keyStr_inj (hPwf t0 h1) hv hk0
          refine ⟨{ p with downPath := full (fnameOf v n false) }, ?_, ?_, ?_⟩
          · rw [hk0]
            exact insertA_self_mem out _ _
          · show p.version = t0.1
            rw [← hpv, ht1]
          · show p.name = t0.2.1
            rw [← hpn, ht2]
        · exact ⟨p0, mem_insertA_of_ne out _ _ _ hp0 hk0, hv0, hn0⟩
      · rw [List.mem_singleton] at h2
        subst h2
        refine ⟨{ p with downPath := full (fnameOf v n false) },
          insertA_self_mem out _ _, ?_, ?_⟩
        · exact hpv.symm
        · exact hpn.symm
    · exact hmapfst.symm ▸ inv.keys_nodup
    · intro kp hkp
      rcases mem_insertA_strong out _ _ kp inv.keys_nodup hkp with h1 | h2
      · subst h1
        exact Or.inr (hf (fnameOf v n false))
      · exact inv.some_path kp h2.1

/-- Empty-state scanning invariant. -/
theorem scanInv_nil : ScanInv [] [] :=
  ⟨fun kp h => absurd h (List.not_mem_nil kp),
   fun kp h => absurd h (List.not_mem_nil kp),
   fun kp h => absurd h (List.not_mem_nil kp),
   fun kp h => absurd h (List.not_mem_nil kp),
   fun t h => absurd h (List.not_mem_nil t),
   List.nodup_nil,
   fun kp h => absurd h (List.not_mem_nil kp)⟩

/-- Forward analysis: a successful scanning run implies the invariant over
all parsed triples and, in particular, that no triple occurred twice. -/
theorem scanTriples_ok_inv {full : String → String} (hf : ∀ s, full s ≠ "") :
    ∀ (ts P : List (String × String × Bool)) (out out' : List (String × Pair)),
      ScanInv P out → (∀ t ∈ P, verWF t.1) → (∀ t ∈ ts, verWF t.1) → P.Nodup →
      scanTriples full ts out = .ok out' →
      ScanInv (P ++ ts) out' ∧ (P ++ ts).Nodup := by
  intro ts
  induction ts with
  | nil =>
    intro P out out' inv hPwf _ hP h
    rw [scanTriples] at h
    have h2 : out = out' := Except.ok.inj h
    subst h2
    rw [List.append_nil]
    exact ⟨inv, hP⟩
  | cons t ts' ih =>
    obtain ⟨v, n, b⟩ := t
    intro P out out' inv hPwf hts hP h
    have hv : verWF v := hts (v, n, b) (List.mem_cons_self _ _)
    have hts' : ∀ q ∈ ts', verWF q.1 := fun q hq => hts q (List.mem_cons_of_mem _ hq)
    rw [scanTriples] at h
    cases b with
    | true =>
      rw [if_pos (rfl : (true : Bool) = true)] at h
      by_cases hdup : ((lookupA out (keyStr v n)).getD
          { version := v, name := n, upPath := "", downPath := "" }).upPath ≠ ""
      · rw [if_pos hdup] at h; cases h
      · rw [if_neg hdup] at h
        have hnotin : (v, n, true) ∉ P := fun hc => hdup ((scanStep_up_iff inv hv).mpr hc)
        obtain ⟨inv2, hnd2, hwf2⟩ := scanInv_insert_up hf inv hPwf hP hv hnotin
        have hres := ih (P ++ [(v, n, true)]) _ out' inv2 hwf2 hts' hnd2 h
        rw [List.append_assoc, List.singleton_append] at hres
        exact hres
    | false =>
      rw [if_neg (by simp : ¬ (false : Bool) = true)] at h
      by_cases hdup : ((lookupA out (keyStr v n)).getD
          { version := v, name := n, upPath := "", downPath := "" }).downPath ≠ ""
      · rw [if_pos hdup] at h; cases h
      · rw [if_neg hdup] at h
        have hnotin : (v, n, false) ∉ P := fun hc => hdup ((scanStep_down_iff inv hv).mpr hc)
        obtain ⟨inv2, hnd2, hwf2⟩ := scanInv_insert_down hf inv hPwf hP hv hnotin
        have hres := ih (P ++ [(v, n, false)]) _ out' inv2 hwf2 hts' hnd2 h
        rw [List.append_assoc, List.singleton_append] at hres
        exact hres

/-- Backward analysis: duplicate-free triples always scan successfully,
establishing the invariant. -/
theorem scanTriples_complete_ok {full : String → String} (hf : ∀ s, full s ≠ "") :
    ∀ (ts P : List (String × String × Bool)) (out : List (String × Pair)),
      ScanInv P out → (∀ t ∈ P, verWF t.1) → (∀ t ∈ ts, verWF t.1) →
      (P ++ ts).Nodup →
      ∃ out', scanTriples full ts out = .ok out' ∧ ScanInv (P ++ ts) out' := by
  intro ts
  induction ts with
  | nil =>
    intro P out inv _ _ _
    exact ⟨out, rfl, (List.append_nil P).symm ▸ inv⟩
  | cons t ts' ih =>
    obtain ⟨v, n, b⟩ := t
    intro P out inv hPwf hts hnd
    have hv : verWF v := hts (v, n, b) (List.mem_cons_self _ _)
    have hts' : ∀ q ∈ ts', verWF q.1 := fun q hq => hts q (List.mem_cons_of_mem _ hq)
    have hP : P.Nodup := (List.nodup_append.mp hnd).1
    have hnotin : (v, n, b) ∉ P := fun hc =>
      (List.nodup_append.mp hnd).2.2 hc (List.mem_cons_self _ _)
    have hnd2 : ((P ++ [(v, n, b)]) ++ ts').Nodup := by
      rw [List.append_assoc, List.singleton_append]
      exact hnd
    rw [scanTriples]
    cases b with
    | true =>
      rw [if_pos (rfl : (true : Bool) = true)]
      have hdupf : ¬ (((lookupA out (keyStr v n)).getD
          { version := v, name := n, upPath := "", downPath := "" }).upPath ≠ "") :=
        fun hc => hnotin ((scanStep_up_iff inv hv).mp hc)
      rw [if_neg hdupf]
      obtain ⟨inv2, _, hwf2⟩ := scanInv_insert_up hf inv hPwf hP hv hnotin
      obtain ⟨out', hout', hinv'⟩ := ih (P ++ [(v, n, true)]) _ inv2 hwf2 hts' hnd2
      rw [List.append_assoc, List.singleton_append] at hinv'
      exact ⟨out', hout', hinv'⟩
    | false =>
      rw [if_neg (by simp : ¬ (false : Bool) = true)]
      have hdupf : ¬ (((lookupA out (keyStr v n)).getD
          { version := v, name := n, upPath := "", downPath := "" }).downPath ≠ "") :=
        fun hc => hnotin ((scanStep_down_iff inv hv).mp hc)
      rw [if_neg hdupf]
      obtain ⟨inv2, _, hwf2⟩ := scanInv_insert_down hf inv hPwf hP hv hnotin
      obtain ⟨out', hout', hinv'⟩ := ih (P ++ [(v, n, false)]) _ inv2 hwf2 hts' hnd2
      rw [List.append_assoc, List.singleton_append] at hinv'
      exact ⟨out', hout', hinv'⟩

/-- C7: discovery succeeds exactly when no duplicate forward/backward file
exists for a (version, name) and every (version, name) seen has both
halves — the completeness check only looks at the whole listing, so order
and interleaving inside the listing are irrelevant; directories and
non-matching names are ignored and never cause an error. -/
theorem c7_discovery_validation :
    (∀ (entries : List DirEntry) (full : String → String), (∀ s, full s ≠ "") →
      ((∃ m, scanMap entries full = .ok m) ↔
        ((parsedOf entries).Nodup ∧
         ∀ t ∈ parsedOf entries, (t.1, t.2.1, !t.2.2) ∈ parsedOf entries))) ∧
    (∀ (l1 l2 : List DirEntry) (e : DirEntry) (full : String → String),
      (e.isDir = true ∨ parseMigName e.name = none) →
      scanMap (l1 ++ e :: l2) full = scanMap (l1 ++ l2) full) := by
  constructor
  · intro entries full hf
    constructor
    · rintro ⟨m, hm⟩
      unfold scanMap at hm
      cases hgo : scanGo full entries [] with
      | error e => rw [hgo] at hm; cases hm
      | ok out =>
        rw [hgo] at hm
        dsimp only at hm
        have hgo2 : scanTriples full (parsedOf entries) [] = .ok out := by
          rw [← scanGo_eq_triples]
          exact hgo
        obtain ⟨hinv, hndP⟩ := scanTriples_ok_inv hf (parsedOf entries) [] [] out
          scanInv_nil (fun t h => absurd h (List.not_mem_nil t)) (parsedOf_wf entries)
          List.nodup_nil hgo2
        rw [List.nil_append] at hinv hndP
        refine ⟨hndP, ?_⟩
        intro t ht
        obtain ⟨p, hpmem, hpv, hpn⟩ := hinv.covers t ht
        cases hfind : out.find? (fun kp => kp.2.upPath == "" || kp.2.downPath == "") with
        | some kp => rw [hfind] at hm; cases hm
        | none =>
          rw [List.find?_eq_none] at hfind
          have hboth := hfind (keyStr t.1 t.2.1, p) hpmem
          simp only [Bool.or_eq_true, not_or, beq_iff_eq] at hboth
          have hup : p.upPath ≠ "" := by
            intro hc; exact hboth.1 (by simpa using hc)
          have hdw : p.downPath ≠ "" := by
            intro hc; exact hboth.2 (by simpa using hc)
          have h1 := (hinv.up_iff (keyStr t.1 t.2.1, p) hpmem).mp hup
          have h2 := (hinv.down_iff (keyStr t.1 t.2.1, p) hpmem).mp hdw
          rw [hpv, hpn] at h1 h2
          cases hb : t.2.2 with
          | true => simpa using h2
          | false => simpa using h1
    · rintro ⟨hnodup, hcomp⟩
      obtain ⟨out', hok, hinv⟩ := scanTriples_complete_ok hf (parsedOf entries) [] []
        scanInv_nil (fun t h => absurd h (List.not_mem_nil t)) (parsedOf_wf entries)
        (by rw [List.nil_append]; exact hnodup)
      rw [List.nil_append] at hinv
      refine ⟨out', ?_⟩
      unfold scanMap
      rw [show scanGo full entries [] = .ok out' from by rw [scanGo_eq_triples]; exact hok]
      dsimp only
      have hval : out'.find? (fun kp => kp.2.upPath == "" || kp.2.downPath == "") = none := by
        rw [List.find?_eq_none]
        intro kp hkp
        have hup2 : kp.2.upPath ≠ "" ∧ kp.2.downPath ≠ "" := by
          rcases hinv.some_path kp hkp with hup | hdw
          · have h1 := (hinv.up_iff kp hkp).mp hup
            have h2 := hcomp _ h1
            refine ⟨hup, (hinv.down_iff kp hkp).mpr ?_⟩
            simpa using h2
          · have h1 := (hinv.down_iff kp hkp).mp hdw
            have h2 := hcomp _ h1
            refine ⟨(hinv.up_iff kp hkp).mpr ?_, hdw⟩
            simpa using h2
        simp only [Bool.or_eq_true, not_or, beq_iff_eq]
        exact ⟨hup2.1, hup2.2⟩
      rw [hval]
  · intro l1 l2 e full hskip
    have hfe : (if e.isDir then none else parseMigName e.name) = none := by
      rcases hskip with h | h
      · rw [if_pos h]
      · by_cases hd : e.isDir = true
        · rw [if_pos hd]
        · rw [if_neg hd, h]
    have hpeq : parsedOf (l1 ++ e :: l2) = parsedOf (l1 ++ l2) := by
      unfold parsedOf
      rw [List.filterMap_append, List.filterMap_append, List.filterMap_cons, hfe]
    unfold scanMap
    rw [scanGo_eq_triples, scanGo_eq_triples, hpeq]

/-- Helper: the path-joining fixture never yields an empty path. -/
theorem wFull_ne (s : String) : wFull s ≠ "" := by
  intro h
  have hd : ("migrations/" ++ s).data = "".data := congrArg String.data h
  rw [String.data_append] at hd
  simp at hd

/-- Witness for C7: the two-file listing scans successfully (its parse list
is duplicate-free and complete), and inserting a non-matching file is
invisible to the scanner. -/
theorem c7_witness :
    (∃ m, scanMap wEnts wFull = .ok m) ∧
    scanMap ([] ++ { name := "README.md", isDir := false } :: wEnts) wFull =
      scanMap ([] ++ wEnts) wFull :=
  ⟨(c7_discovery_validation.1 wEnts wFull wFull_ne).mpr ⟨by decide, by decide⟩,
   c7_discovery_validation.2 [] wEnts { name := "README.md", isDir := false } wFull
     (Or.inr (by decide))⟩

/-! ### Claim C8 — plan ordering and determinism -/

theorem strmk_data (s : String) : String.mk s.data = s := by
  cases s
  rfl

theorem versionOf_keyStr {v : String} (n : String) (hv : ∀ c ∈ v.data, c ≠ ':') :
    versionOf (keyStr v n) = v := by
  unfold versionOf
  rw [keyStr_data]
  have h := takeWhile_all_append (p := fun c => decide (c ≠ ':')) v.data ':' n.data
    (fun c hc => by simpa using hv c hc) (by simp)
  rw [h.1, strmk_data]

theorem strLt_keyStr_same_ver (v n1 n2 : String) :
    strLt (keyStr v n1) (keyStr v n2) = strLt n1 n2 := by
  unfold strLt
  rw [keyStr_data, keyStr_data]
  have h1 : v.data ++ ':' :: n1.data = (v.data ++ [':']) ++ n1.data := by
    rw [List.append_assoc, List.singleton_append]
  have h2 : v.data ++ ':' :: n2.data = (v.data ++ [':']) ++ n2.data := by
    rw [List.append_assoc, List.singleton_append]
  rw [h1, h2, charListLt_append_same]

/-- The `SortKeys` comparator on well-formed keys is exactly the strict
version-then-name lexicographic order. -/
theorem keyLess_keyStr {v1 n1 v2 n2 : String} (h1 : verWF v1) (h2 : verWF v2)
    (h : keyLess (keyStr v1 n1) (keyStr v2 n2) = true) :
    strLt v1 v2 = true ∨ (v1 = v2 ∧ strLt n1 n2 = true) := by
  have hc1 : ∀ c ∈ v1.data, c ≠ ':' := fun c hc => isDigitChar_ne_colon (h1 c hc)
  have hc2 : ∀ c ∈ v2.data, c ≠ ':' := fun c hc => isDigitChar_ne_colon (h2 c hc)
  simp only [keyLess] at h
  rw [versionOf_keyStr n1 hc1, versionOf_keyStr n2 hc2] at h
  by_cases hv : v1 = v2
  · rw [if_pos hv] at h
    subst hv
    rw [strLt_keyStr_same_ver] at h
    exact Or.inr ⟨rfl, h⟩
  · rw [if_neg hv] at h
    exact Or.inl h

theorem sortKeys_perm (keys : List String) : (SortKeys keys).Perm keys :=
  List.perm_insertionSort _ keys

theorem sortKeys_sorted (keys : List String) :
    (SortKeys keys).Pairwise (fun a b => keyLe a b = true) := by
  haveI : IsTotal String (fun a b => keyLe a b = true) :=
    ⟨fun a b => by
      have h := keyLe_total a b
      cases hab : keyLe a b with
      | true => exact Or.inl rfl
      | false =>
        rw [hab] at h
        simp at h
        exact Or.inr h⟩
  haveI : IsTrans String (fun a b => keyLe a b = true) :=
    ⟨fun a b c => keyLe_trans⟩
  exact List.sorted_insertionSort _ keys

theorem sortKeys_deterministic {ks ks' : List String} (h : ks.Perm ks') :
    SortKeys ks = SortKeys ks' := by
  haveI : IsAntisymm String (fun a b => keyLe a b = true) := ⟨fun a b h1 h2 => by
    unfold keyLe at h1 h2
    simp only [Bool.not_eq_true'] at h1 h2
    exact keyLess_total_eq h2 h1⟩
  exact List.eq_of_perm_of_sorted
    ((sortKeys_perm ks).trans (h.trans (sortKeys_perm ks').symm))
    (sortKeys_sorted ks) (sortKeys_sorted ks')

/-- The sorted key list is strictly increasing when the keys are
duplicate-free. -/
theorem sortKeys_strict {keys : List String} (hnd : keys.Nodup) :
    (SortKeys keys).Pairwise (fun a b => keyLess a b = true) := by
  have hsorted := sortKeys_sorted keys
  have hnd2 : (SortKeys keys).Pairwise (fun a b => a ≠ b) :=
    ((sortKeys_perm keys).symm).nodup hnd
  refine (hsorted.and hnd2).imp ?_
  rintro a b ⟨hle, hne⟩
  unfold keyLe at hle
  rw [Bool.not_eq_true'] at hle
  cases hab : keyLess a b with
  | false => exact absurd (keyLess_total_eq hab hle) hne
  | true => rfl

theorem lookupA_perm {m m' : List (String × Pair)} (hperm : m.Perm m')
    (hnd : (m.map Prod.fst).Nodup) (k : String) : lookupA m k = lookupA m' k := by
  cases h : lookupA m k with
  | some p =>
    have hmem : (k, p) ∈ m' := hperm.subset (mem_of_lookupA h)
    cases h' : lookupA m' k with
    | none => exact absurd hmem (lookupA_none_not_mem h' p)
    | some q =>
      have hmem2 : (k, q) ∈ m := hperm.symm.subset (mem_of_lookupA h')
      have := List.inj_on_of_nodup_map hnd (mem_of_lookupA h) hmem2 rfl
      rw [Prod.mk.injEq] at this
      rw [this.2]
  | none =>
    cases h' : lookupA m' k with
    | none => rfl
    | some q =>
      have hmem2 : (k, q) ∈ m := hperm.symm.subset (mem_of_lookupA h')
      exact absurd hmem2 (lookupA_none_not_mem h q)

theorem findRow_perm {L L' : List Row} (hperm : L.Perm L')
    (hnd : (L.map keyRow).Nodup) (k : String) : findRow L k = findRow L' k := by
  cases h : findRow L k with
  | some r =>
    have hk : keyRow r = k := findRow_wf L k r h
    have hmemr : r ∈ L := List.mem_of_find?_eq_some h
    have hmem : r ∈ L' := hperm.subset hmemr
    cases h' : findRow L' k with
    | none =>
      rw [findRow, List.find?_eq_none] at h'
      exact absurd (by simp [hk]) (h' r hmem)
    | some q =>
      have hmemq : q ∈ L := hperm.symm.subset (List.mem_of_find?_eq_some h')
      have hkq : keyRow q = k := findRow_wf L' k q h'
      have := List.inj_on_of_nodup_map hnd hmemr hmemq (by rw [hk, hkq])
      rw [this]
  | none =>
    cases h' : findRow L' k with
    | none => rfl
    | some q =>
      have hmemq : q ∈ L := hperm.symm.subset (List.mem_of_find?_eq_some h')
      have hkq : keyRow q = k := findRow_wf L' k q h'
      rw [findRow, List.find?_eq_none] at h
      exact absurd (by simp [hkq]) (h q hmemq)

/-- Strict version-then-name lexicographic order on pairs: the order the
spec promises for the `All` (and hence `Pending`) list. -/
def verNameLess (x y : FilePair) : Prop :=
  strLt x.version y.version = true ∨ (x.version = y.version ∧ strLt x.name y.name = true)

/-- A successful `scanMap` satisfies the scanning invariant over all its
parsed triples. -/
theorem scanMap_ok_inv {entries : List DirEntry} {full : String → String}
    {m : List (String × Pair)} (hf : ∀ s, full s ≠ "")
    (h : scanMap entries full = .ok m) : ScanInv (parsedOf entries) m := by
  unfold scanMap at h
  cases hgo : scanGo full entries [] with
  | error e => rw [hgo] at h; cases h
  | ok out =>
    rw [hgo] at h
    dsimp only at h
    cases hfind : out.find? (fun kp => kp.2.upPath == "" || kp.2.downPath == "") with
    | some kp => rw [hfind] at h; cases h
    | none =>
      rw [hfind] at h
      have h2 : out = m := Except.ok.inj h
      subst h2
      have hgo2 : scanTriples full (parsedOf entries) [] = .ok out := by
        rw [← scanGo_eq_triples]
        exact hgo
      obtain ⟨hinv, _⟩ := scanTriples_ok_inv hf (parsedOf entries) [] [] out
        scanInv_nil (fun t ht => absurd ht (List.not_mem_nil t)) (parsedOf_wf entries)
        List.nodup_nil hgo2
      rw [List.nil_append] at hinv
      exact hinv

/-- **C8.** For every successful `DiscoverAndPlan`, the `All` list is
strictly sorted by version token first and then by name, and the
`Pending` list is a subsequence of `All` (so retries and never-attempted
changes interleave in that same order); moreover the plan is a function
of the *set* of discovered pairs and of the *set* of ledger rows only:
permuting the pair map's iteration order leaves `buildAll` unchanged, and
permuting the ledger leaves the pending classification unchanged. -/
theorem c8_plan_order :
    (∀ (entries : List DirEntry) (full content hash : String → String)
        (ledger : List Row) (plan : GoPlan),
        (∀ s, full s ≠ "") →
        DiscoverAndPlan entries full content hash ledger = .ok plan →
        plan.all.Pairwise verNameLess ∧ plan.pending.Sublist plan.all) ∧
    (∀ (m m' : List (String × Pair)) (content hash : String → String),
        m.Perm m' → (m.map Prod.fst).Nodup →
        buildAll m content hash = buildAll m' content hash) ∧
    (∀ (all : List FilePair) (ledger ledger' : List Row),
        ledger.Perm ledger' → (ledger.map keyRow).Nodup →
        planPending all (findRow ledger) = planPending all (findRow ledger')) := by
  refine ⟨?_, ?_, ?_⟩
  · intro entries full content hash ledger plan hf hplan
    unfold DiscoverAndPlan at hplan
    cases hscan : scanMap entries full with
    | error e => rw [hscan] at hplan; cases hplan
    | ok m =>
      rw [hscan] at hplan
      dsimp only at hplan
      cases hpp : planPending (buildAll m content hash) (findRow ledger) with
      | error e => rw [hpp] at hplan; cases hplan
      | ok pending =>
        rw [hpp] at hplan
        have hrec := Except.ok.inj hplan
        subst hrec
        have hinv := scanMap_ok_inv hf hscan
        constructor
        · show (buildAll m content hash).Pairwise verNameLess
          unfold buildAll
          rw [List.pairwise_filterMap]
          have hnd3 : (m.map (fun kp => kp.1)).Nodup := hinv.keys_nodup
          have hstrict := sortKeys_strict hnd3
          refine hstrict.imp ?_
          intro a b hab x hx y hy
          rw [Option.mem_def, Option.map_eq_some'] at hx hy
          obtain ⟨p, hpa, hpx⟩ := hx
          obtain ⟨q, hqb, hqy⟩ := hy
          have hmema : (a, p) ∈ m := mem_of_lookupA hpa
          have hmemb : (b, q) ∈ m := mem_of_lookupA hqb
          have hka : a = keyStr p.version p.name := hinv.key_eq (a, p) hmema
          have hkb : b = keyStr q.version q.name := hinv.key_eq (b, q) hmemb
          have hva : verWF p.version := hinv.ver_wf (a, p) hmema
          have hvb : verWF q.version := hinv.ver_wf (b, q) hmemb
          rw [hka, hkb] at hab
          have hlt := keyLess_keyStr hva hvb hab
          subst hpx
          subst hqy
          exact hlt
        · show pending.Sublist (buildAll m content hash)
          rw [planPending_ok_filter (buildAll m content hash) (findRow ledger) pending hpp]
          exact List.filter_sublist _
  · intro m m' content hash hperm hnd
    unfold buildAll
    have hkeys : (m.map (fun kp => kp.1)).Perm (m'.map (fun kp => kp.1)) := hperm.map _
    rw [sortKeys_deterministic hkeys]
    have hfun : (fun k => (lookupA m k).map (toFilePair content hash)) =
        (fun k => (lookupA m' k).map (toFilePair content hash)) := by
      funext k
      rw [lookupA_perm hperm hnd k]
    rw [hfun]
  · intro all ledger ledger' hperm hnd
    have hfun : findRow ledger = findRow ledger' := funext (findRow_perm hperm hnd)
    rw [hfun]

/-- The single `FilePair` that `DiscoverAndPlan` reads from `wEnts`. -/
def wFpInit : FilePair :=
  { version := "20250101000000", name := "init",
    upPath := "migrations/20250101000000_init.up.sql",
    downPath := "migrations/20250101000000_init.down.sql",
    upBytes := "CREATE", downBytes := "DROP", checksum := "h-CREATE" }

/-- The plan produced on an empty ledger. -/
def wPlan : GoPlan := { pending := [wFpInit], appliedRows := [], all := [wFpInit] }

/-- Second map entry for the determinism witness. -/
def wKP2 : String × Pair :=
  ("20250102000000:next",
   { version := "20250102000000", name := "next", upPath := "u2", downPath := "d2" })

/-- First map entry for the determinism witness (the `wScanned` pair). -/
def wKP1 : String × Pair :=
  ("20250101000000:init",
   { version := "20250101000000", name := "init",
     upPath := "migrations/20250101000000_init.up.sql",
     downPath := "migrations/20250101000000_init.down.sql" })

/-- Second ledger row for the determinism witness. -/
def wRowN : Row :=
  { version := "20250102000000", name := "next", checksum := "c2", appliedAt := 0,
    appliedBy := "x", durationMS := 1, status := "success", executionOrder := 2 }

/-- Witness for C8: the concrete plan over `wEnts` is sorted with pending a
subsequence of all, and both determinism parts hold for two-element maps
and ledgers presented in swapped orders. -/
theorem c8_witness :
    (wPlan.all.Pairwise verNameLess ∧ wPlan.pending.Sublist wPlan.all) ∧
    buildAll [wKP1, wKP2] wContent wHash = buildAll [wKP2, wKP1] wContent wHash ∧
    planPending [wFpInit] (findRow [wRowDrift, wRowN]) =
      planPending [wFpInit] (findRow [wRowN, wRowDrift]) :=
  ⟨c8_plan_order.1 wEnts wFull wContent wHash [] wPlan wFull_ne rfl,
   c8_plan_order.2.1 [wKP1, wKP2] [wKP2, wKP1] wContent wHash
     (List.Perm.swap wKP2 wKP1 []) (by decide),
   c8_plan_order.2.2 [wFpInit] [wRowDrift, wRowN] [wRowN, wRowDrift]
     (List.Perm.swap wRowN wRowDrift []) (by decide)⟩

end Gomigratex

